import Mathlib

/-!
Verification of the Hybrid B-Tree (btree-hybrid.h, ws.h, util.h) against its
natural-language specification.

The development is a shallow embedding of the sequential (single-threaded)
behaviour of the source:

* Keys and values are C++ uint64_t; they are modelled as Nat, with the
  wrap-around arithmetic of the source (k + LeafMax, k - LeafMax, k + 1 on
  64-bit words) made explicit through addition/subtraction modulo 2^64.
  Comparisons on uint64_t coincide with Nat comparisons on values < 2^64.
* The optimistic-lock protocol (OptLock), the pthread rwlock big_lock and the
  WS mutex are concurrency control only; in a single-threaded execution every
  read validation succeeds and every lock acquisition succeeds immediately, so
  they disappear from the embedding.  The only restarts that remain are the
  structural ones: after a node split the source re-descends from the root
  (goto restart), which the embedding models as an explicit loop.
* Reads of array slots beyond the live count (the source leaves those slots
  uninitialized) are modelled as the default value 0 via List.getD; the places
  where such reads occur in a sequential run only feed the policy layer.
* The uninitialized local variable success in BTree::lookup is modelled as an
  explicit parameter carrying the value the stack garbage happens to have.
* The hot cache is a libcuckoo cuckoohash_map.  Its point operations have the
  documented libcuckoo semantics: insert(k, v) inserts only when k is absent
  and does NOT update the value of a present key (updating needs the separate
  upsert/insert_or_assign entry points, which the source never calls); find
  copies the mapped value out; erase removes the key.  The model is an
  association list with exactly these operations.
* std::sort is modelled by an insertion sort; std::sort's contract (some
  sorted permutation of the input) determines the output uniquely here
  because the lexicographic order on pairs of Nat is total and antisymmetric.
* Modelled from the spec: the RangeMap used by ws.h (member functions find,
  insert, remove, size).  The file src/btrees/util.h in the tree contains a
  RangeMap with a different interface (insert_range/insert_key/lookup); the
  RangeMap version that ws.h and test_util.cc compile against is not under
  src/.  Following spec section 4.2 and the tests, the model is an ordered
  map keyed by the range's low endpoint: find(k) locates the predecessor
  entry of k and checks hi > k; insert assumes the caller checked overlap
  and keeps the existing entry on a duplicate low key (std::map::insert
  semantics); remove erases by exact low key and returns the payload.

Each claim is settled by one theorem near the end of the file.
-/

namespace BTreeHybrid

/-! ### Machine-word arithmetic -/

/-- The modulus of C++ uint64_t arithmetic. -/
def u64 : Nat := 2 ^ 64

/-- Wrap-around addition on uint64_t. -/
def wadd (a b : Nat) : Nat := (a + b) % u64

/-- Wrap-around subtraction on uint64_t. -/
def wsub (a b : Nat) : Nat := (a + (u64 - b % u64)) % u64

/-! ### Page-size constants (btree-hybrid.h)

pageSize = 4 * 1024.  sizeof(NodeBase) = 16 (an 8-byte atomic word, a 1-byte
PageType, a 2-byte count, padded to alignment 8).  With Key = Value = uint64_t
and 8-byte child pointers both fan-outs evaluate to (4096 - 16) / 16 = 255. -/

/-- Page size in bytes. -/
def pageSize : Nat := 4 * 1024

/-- sizeof(NodeBase): OptLock word (8) + type (1) + count (2), padded to 16. -/
def nodeBaseBytes : Nat := 16

/-- BTreeLeaf::maxEntries = (pageSize - sizeof(NodeBase)) / (sizeof(Key) + sizeof(Payload)). -/
def leafMaxEntries : Nat := (pageSize - nodeBaseBytes) / (8 + 8)

/-- BTreeInner::maxEntries = (pageSize - sizeof(NodeBase)) / (sizeof(Key) + sizeof(NodeBase*)). -/
def innerMaxEntries : Nat := (pageSize - nodeBaseBytes) / (8 + 8)

/-! ### Binary search (BTreeLeaf::lowerBound / BTreeInner::lowerBound)

The source's do-while loop, fuelled.  The loop body always runs at least
once (even when count = 0, in which case the C++ code reads the dead slot
keys[0], modelled as 0).  The span upper - lower strictly decreases on every
repeat of the loop, so fuel length + 1 is never exhausted. -/

/-- One do-while execution of the lowerBound binary search. -/
def lowerBoundGo (keys : List Nat) (k : Nat) : Nat → Nat → Nat → Nat
  | 0, lower, _ => lower
  | fuel + 1, lower, upper =>
    let mid := (upper - lower) / 2 + lower
    let x := keys.getD mid 0
    if k < x then
      (if lower < mid then lowerBoundGo keys k fuel lower mid else lower)
    else if x < k then
      (if mid + 1 < upper then lowerBoundGo keys k fuel (mid + 1) upper else mid + 1)
    else mid

/-- lowerBound(k): index of the least key that is greater than or equal to k
(count when there is none), computed by the source's binary search. -/
def lowerBound (keys : List Nat) (k : Nat) : Nat :=
  lowerBoundGo keys k (keys.length + 1) 0 keys.length

/-! ### Nodes -/

/-- A B-tree node: a leaf carries the live keys/payloads slots (the first
count array entries of the source), an inner node carries the live separator
keys and its count + 1 children. -/
inductive Node where
  | leaf (keys : List Nat) (payloads : List Nat)
  | inner (keys : List Nat) (children : List Node)
deriving Repr

/-- BTreeLeaf::isFull / BTreeInner::isFull of the node. -/
def isFullNode : Node → Bool
  | .leaf keys _ => decide (keys.length = leafMaxEntries)
  | .inner keys _ => decide (keys.length = innerMaxEntries - 1)

/-- BTreeLeaf::insert: upsert if an equal key is present, else shift and
place (modelled by List.insertIdx at the lowerBound position). -/
def leafInsert (keys pls : List Nat) (k p : Nat) : List Nat × List Nat :=
  if keys.length ≠ 0 then
    let pos := lowerBound keys k
    if pos < keys.length ∧ keys.getD pos 0 = k then
      (keys, pls.set pos p)
    else
      (keys.insertIdx pos k, pls.insertIdx pos p)
  else
    ([k], [p])

/-- BTreeLeaf::split: the new (right) leaf receives count - count/2 entries,
this leaf keeps the first count/2, and sep is the last key kept.
Returns ((left keys, left payloads), (right keys, right payloads), sep). -/
def leafSplit (keys pls : List Nat) :
    (List Nat × List Nat) × (List Nat × List Nat) × Nat :=
  let n := keys.length
  let newCount := n - n / 2
  let keep := n - newCount
  ((keys.take keep, pls.take keep),
   ((keys.drop keep).take newCount, (pls.drop keep).take newCount),
   keys.getD (keep - 1) 0)

/-- BTreeInner::insert: place the separator at pos = lowerBound(k) and the
new child at pos + 1 (the source inserts the child at pos and then swaps
children[pos] with children[pos+1]). -/
def innerInsert (keys : List Nat) (children : List Node) (k : Nat) (child : Node) :
    List Nat × List Node :=
  let pos := lowerBound keys k
  (keys.insertIdx pos k, children.insertIdx (pos + 1) child)

/-- BTreeInner::split: with n separators, the right node receives
newCount = n - n/2 separators, this node keeps n - newCount - 1, and the
separator keys[n - newCount - 1] is promoted.  The children are partitioned
after position keep. -/
def innerSplit (keys : List Nat) (children : List Node) :
    (List Nat × List Node) × (List Nat × List Node) × Nat :=
  let n := keys.length
  let newCount := n - n / 2
  let keep := n - newCount - 1
  ((keys.take keep, children.take (keep + 1)),
   ((keys.drop (keep + 1)).take newCount, (children.drop (keep + 1)).take (newCount + 1)),
   keys.getD keep 0)

/-- Split an arbitrary node, returning (left, right, sep). -/
def splitNode : Node → Node × Node × Nat
  | .leaf ks ps =>
    let s := leafSplit ks ps
    (.leaf s.1.1 s.1.2, .leaf s.2.1.1 s.2.1.2, s.2.2)
  | .inner ks cs =>
    let s := innerSplit ks cs
    (.inner s.1.1 s.1.2, .inner s.2.1.1 s.2.1.2, s.2.2)

/-- BTree::makeRoot: a fresh inner root with one separator and two children. -/
def makeRoot (k : Nat) (leftChild rightChild : Node) : Node :=
  .inner [k] [leftChild, rightChild]

/-- Split a full root (leaf or inner) and publish the new root, as the
parent == nullptr branches of the eager-split code do. -/
def splitRootNode (t : Node) : Node :=
  let s := splitNode t
  makeRoot s.2.2 s.1 s.2.1

/-- Split the full child at index i of an inner node (the child pointer at i
keeps the left half in place) and insert the separator and the right half
into the inner node via BTreeInner::insert. -/
def splitChildAt (keys : List Nat) (children : List Node) (i : Nat) (c : Node) :
    List Nat × List Node :=
  let s := splitNode c
  innerInsert keys (children.set i s.1) s.2.2 s.2.1

/-! ### The eager-split descent

Sequentially, one attempt of the descent loops of insert_inner /
bulk_insert_traverse either splits exactly one node (the first full node
encountered on the search path; the source then does goto restart and the
embedding loops), or reaches a non-full leaf.  The accumulator of type alpha
together with upd models the per-level bookkeeping the two routines do
(is_leftmost / is_rightmost flags, min/max parent keys, the parent index);
it does not influence control flow.

A child index that is out of range of the children list (possible only on
trees that violate the structural node invariants; the C++ source would
dereference a garbage pointer) is modelled by arriving at a phantom empty
leaf. -/

/-- Result of one descent attempt: either a split happened and the whole
descent restarts on the rebuilt tree, or a non-full leaf was reached, with
the child-index path to it and its contents. -/
inductive GoRes (α : Type) where
  | didSplit (t : Node)
  | leafFound (acc : α) (path : List Nat) (ks ps : List Nat)

/-- What happened at the child a descent step entered. -/
inductive ChildRes (α : Type) where
  | noChild
  | fullChild (c : Node)
  | splitBelow (c2 : Node)
  | leafBelow (acc : α) (path : List Nat) (ks ps : List Nat)

mutual

/-- One descent attempt below a non-full node.  At each inner node: compute
the child index, update the accumulator, and if the child about to be
entered is full, split it into the current node and restart. -/
def goD {α : Type} (upd : α → List Nat → Nat → α) : Node → Nat → α → GoRes α
  | .leaf ks ps, _, acc => .leafFound acc [] ks ps
  | .inner keys children, k, acc =>
    let i := lowerBound keys k
    let acc' := upd acc keys i
    match goChild upd children i k acc' with
    | .noChild => .leafFound acc' [i] [] []
    | .fullChild c =>
      .didSplit (.inner (splitChildAt keys children i c).1 (splitChildAt keys children i c).2)
    | .splitBelow c2 => .didSplit (.inner keys (children.set i c2))
    | .leafBelow a2 p ks2 ps2 => .leafFound a2 (i :: p) ks2 ps2

/-- Walk to the i-th child and continue the descent attempt there. -/
def goChild {α : Type} (upd : α → List Nat → Nat → α) : List Node → Nat → Nat → α → ChildRes α
  | [], _, _, _ => .noChild
  | c :: _, 0, k, acc =>
    if isFullNode c then .fullChild c
    else
      match goD upd c k acc with
      | .didSplit c2 => .splitBelow c2
      | .leafFound a p ks ps => .leafBelow a p ks ps
  | _ :: cs, i + 1, k, acc => goChild upd cs i k acc

end

/-- The restart loop around the descent: a full root is split and published
first (the parent == nullptr case), then an attempt runs; on a split the
loop restarts on the rebuilt tree.  Returns none on fuel exhaustion (which
theorem loopD_isSome below rules out for well-shaped trees), else the tree
as seen by the final attempt together with the leaf data. -/
def loopD {α : Type} (upd : α → List Nat → Nat → α) (a0 : α) :
    Nat → Node → Nat → Option (Node × α × List Nat × List Nat × List Nat)
  | 0, _, _ => none
  | fuel + 1, t, k =>
    if isFullNode t then loopD upd a0 fuel (splitRootNode t) k
    else
      match goD upd t k a0 with
      | .didSplit t2 => loopD upd a0 fuel t2 k
      | .leafFound acc path ks ps => some (t, acc, path, ks, ps)

mutual

/-- The node reached from t by following a child-index path. -/
def nodeAt : Node → List Nat → Option Node
  | t, [] => some t
  | .leaf _ _, _ :: _ => none
  | .inner _ children, i :: p => nodeAtChild children i p

/-- Walk to the i-th child and continue following the path there. -/
def nodeAtChild : List Node → Nat → List Nat → Option Node
  | [], _, _ => none
  | c :: _, 0, p => nodeAt c p
  | _ :: cs, i + 1, p => nodeAtChild cs i p

end

mutual

/-- Replace the leaf at the end of a child-index path by new contents (an
index out of range leaves that child list unchanged, mirroring that such
paths never occur on well-shaped trees). -/
def replaceLeaf : Node → List Nat → List Nat → List Nat → Node
  | _, [], nk, np => .leaf nk np
  | .leaf _ _, _ :: _, nk, np => .leaf nk np
  | .inner keys children, i :: p, nk, np => .inner keys (replaceChild children i p nk np)

/-- Replace within the i-th child of a children list. -/
def replaceChild : List Node → Nat → List Nat → List Nat → List Nat → List Node
  | [], _, _, _, _ => []
  | c :: cs, 0, p, nk, np => replaceLeaf c p nk np :: cs
  | c :: cs, i + 1, p, nk, np => c :: replaceChild cs i p nk np

end

/-! ### Structural measures and the shape invariant -/

mutual

/-- Number of full nodes in the tree. -/
def fullCount : Node → Nat
  | .leaf keys _ => if keys.length = leafMaxEntries then 1 else 0
  | .inner keys children =>
    (if keys.length = innerMaxEntries - 1 then 1 else 0) + fullCountL children

/-- Sum of fullCount over a children list. -/
def fullCountL : List Node → Nat
  | [] => 0
  | c :: cs => fullCount c + fullCountL cs

end

mutual

/-- Height of the tree (a leaf has height 0). -/
def heightN : Node → Nat
  | .leaf _ _ => 0
  | .inner _ children => 1 + heightL children

/-- Maximum height over a children list. -/
def heightL : List Node → Nat
  | [] => 0
  | c :: cs => max (heightN c) (heightL cs)

end

mutual

/-- Structural well-shapedness: live counts within capacity, a leaf's two
arrays in step, and every inner node with count >= 1 separators and exactly
count + 1 children.  These are the layout facts the source maintains by
construction. -/
def wfShapeB : Node → Bool
  | .leaf keys pls =>
    decide (keys.length ≤ leafMaxEntries) && decide (pls.length = keys.length)
  | .inner keys children =>
    decide (1 ≤ keys.length) && decide (keys.length ≤ innerMaxEntries - 1) &&
      decide (children.length = keys.length + 1) && wfShapeL children

/-- Conjunction of wfShapeB over a children list. -/
def wfShapeL : List Node → Bool
  | [] => true
  | c :: cs => wfShapeB c && wfShapeL cs

end

mutual

/-- Depth of the first full node on the search path of k (none if the path
has no full node). -/
def ffdN : Node → Nat → Option Nat
  | .leaf keys _, _ => if keys.length = leafMaxEntries then some 0 else none
  | .inner keys children, k =>
    if keys.length = innerMaxEntries - 1 then some 0
    else ffdChild children (lowerBound keys k) k

/-- Depth of the first full node on the path below the i-th child. -/
def ffdChild : List Node → Nat → Nat → Option Nat
  | [], _, _ => none
  | c :: _, 0, k => (ffdN c k).map (· + 1)
  | _ :: cs, i + 1, k => ffdChild cs i k

end

mutual

/-- The keys of the key/payload pairs stored in the leaves of the tree (the
separator keys of inner nodes are routing data, not stored pairs). -/
def treeKeys : Node → List Nat
  | .leaf ks _ => ks
  | .inner _ children => treeKeysL children

/-- Concatenation of treeKeys over a children list. -/
def treeKeysL : List Node → List Nat
  | [] => []
  | c :: cs => treeKeys c ++ treeKeysL cs

end

/-- The first-full-node depth as a natural measure: depth + 1 when the
search path of k holds a full node, 0 otherwise. -/
def ffdF (t : Node) (k : Nat) : Nat :=
  match ffdN t k with
  | some d => d + 1
  | none => 0

/-- Fuel that provably suffices for the restart loop on well-shaped trees
(theorem loopD_spec). -/
def treeFuel (t : Node) : Nat :=
  fullCount t * (heightN t + fullCount t + 2) + heightN t + 2

/-! ### Plain tree insertion (insert_inner with in_bulk_insert, or a root leaf)

When insert_inner runs with in_bulk_insert = true, or when the reached leaf
is the root, it performs the plain OLC B-tree insertion: eager-split descent
followed by BTreeLeaf::insert on the reached leaf. -/

/-- Accumulator update for a descent that tracks nothing. -/
def unitUpd : Unit → List Nat → Nat → Unit := fun _ _ _ => ()

/-- Plain B-tree insertion of (k, v): the descent loop with eager splits,
then BTreeLeaf::insert on the reached non-full leaf. -/
def treeInsert (t : Node) (k v : Nat) : Node :=
  match loopD unitUpd () (treeFuel t) t k with
  | none => t
  | some (t2, _, path, ks, ps) =>
    let l := leafInsert ks ps k v
    replaceLeaf t2 path l.1 l.2

mutual

/-- The read-only descent of BTree::lookup / BTree::scan: follow
children[lowerBound(k)] down to a leaf and return its contents. -/
def descendLeaf : Node → Nat → List Nat × List Nat
  | .leaf ks ps, _ => (ks, ps)
  | .inner keys children, k => descendChild children (lowerBound keys k) k

/-- Continue the read-only descent in the i-th child. -/
def descendChild : List Node → Nat → Nat → List Nat × List Nat
  | [], _, _ => ([], [])
  | c :: _, 0, k => descendLeaf c k
  | _ :: cs, i + 1, k => descendChild cs i k

end

/-! ### Bulk insertion (BTree::bulk_insert, used by purge) -/

/-- The in-place merge-from-the-right of bulk_insert, written on lists: the
reversed tails of the existing entries and of the batch are consumed from
the right, always placing the larger key; when the batch key does not
strictly exceed the existing key the existing entry is placed (the source
comparison is end->first > l->keys[existing_end_idx]).  When the batch is
exhausted the remaining existing entries stay in place. -/
def mergeRightGo : Nat → List (Nat × Nat) → List (Nat × Nat) → List (Nat × Nat) → List (Nat × Nat)
  | 0, oldRev, _, acc => oldRev.reverse ++ acc
  | _ + 1, oldRev, [], acc => oldRev.reverse ++ acc
  | fuel + 1, [], b :: bs, acc => mergeRightGo fuel [] bs (b :: acc)
  | fuel + 1, o :: os, b :: bs, acc =>
    if o.1 < b.1 then mergeRightGo fuel (o :: os) bs (b :: acc)
    else mergeRightGo fuel os (b :: bs) (o :: acc)

/-- Merge a sorted batch into the sorted live entries of a leaf.  The fuel
dominates the loop's step count (one list shrinks per step). -/
def mergeRight (old batch : List (Nat × Nat)) : List (Nat × Nat) :=
  mergeRightGo (old.length + batch.length) old.reverse batch.reverse []

/-- The lexicographic order on std::pair that std::sort sorts by. -/
def pairLe (a b : Nat × Nat) : Bool :=
  decide (a.1 < b.1) || (decide (a.1 = b.1) && decide (a.2 ≤ b.2))

/-- Model of std::sort(key_values.begin(), key_values.end()): the sorted
permutation of the input (unique, because the lexicographic order on pairs
of naturals is total and antisymmetric, so std::sort's contract pins the
output down). -/
def sortPairs (l : List (Nat × Nat)) : List (Nat × Nat) :=
  List.insertionSort (fun a b => pairLe a b = true) l

/-- Per-level bookkeeping of bulk_insert_traverse: the cumulative
is_rightmost flag (cleared at any level with parent_idx < count - 1), and
the last visited inner node's keys and child index, from which the leaf's
upper bound is produced. -/
structure TravAcc where
  isRightmost : Bool
  lastKeys : List Nat
  lastIdx : Nat
  seen : Bool

/-- Initial traverse accumulator (parent == nullptr, is_rightmost = true). -/
def travInit : TravAcc := ⟨true, [], 0, false⟩

/-- Accumulator update of bulk_insert_traverse at one inner node. -/
def travUpd (acc : TravAcc) (keys : List Nat) (i : Nat) : TravAcc :=
  ⟨if i < keys.length - 1 then false else acc.isRightmost, keys, i, true⟩

/-- bulk_insert_traverse: descend (with eager splits) to the leaf that key k
would be on and report the tree as then seen, the path to the leaf, its
contents, and the maximum key bound of the leaf: the parent's separator at
the child index, or none when no inner node was visited or the descent was
rightmost at every level. -/
def bulkTraverse (t : Node) (k : Nat) :
    Option (Node × List Nat × List Nat × List Nat × Option Nat) :=
  match loopD travUpd travInit (treeFuel t) t k with
  | none => none
  | some (t2, acc, path, ks, ps) =>
    some (t2, path, ks, ps,
      if acc.seen && !acc.isRightmost then some (acc.lastKeys.getD acc.lastIdx 0) else none)

/-- The cursor loop of bulk_insert: traverse to the write-locked leaf for
the first remaining pair, take the batch that fits (bounded by the free
space of the leaf and by the leaf's maximum key bound), merge it in from
the right, and if input remains do one ordinary insertion for the boundary
element to trigger any needed split, then continue. -/
def bulkLoop : Nat → Node → List (Nat × Nat) → Node
  | 0, t, _ => t
  | _ + 1, t, [] => t
  | fuel + 1, t, (k0, v0) :: rest =>
    match bulkTraverse t k0 with
    | none => t
    | some (t2, path, ks, ps, leafMax) =>
      let kvs := (k0, v0) :: rest
      let batch := (kvs.take (leafMaxEntries - ks.length)).takeWhile
        (fun e => match leafMax with | none => true | some m => decide (e.1 < m))
      let merged := mergeRight (ks.zip ps) batch
      let t3 := replaceLeaf t2 path (merged.map Prod.fst) (merged.map Prod.snd)
      match kvs.drop batch.length with
      | [] => t3
      | (k1, v1) :: rest2 => bulkLoop fuel (treeInsert t3 k1 v1) rest2

/-- BTree::bulk_insert: return on empty input, sort, then run the cursor
loop (each iteration of which consumes at least one pair, so fuel
length + 1 is never exhausted). -/
def bulkInsert (t : Node) (kvs : List (Nat × Nat)) : Node :=
  if kvs.isEmpty then t
  else
    let s := sortPairs kvs
    bulkLoop (s.length + 1) t s

/-! ### Range map (modelled from the spec, section 4.2)

Modelled from the spec: the RangeMap that ws.h compiles against (find /
insert / remove / size) is not under src/; src/btrees/util.h holds an
earlier interface.  An ordered map keyed by lo, kept as a list sorted by
lo: find(k) takes the predecessor entry (greatest lo less than or equal to
k) and checks hi > k; insert keeps the existing entry on a duplicate lo
(std::map::insert); remove erases the entry with exactly the given lo and
returns its payload. -/

/-- RangeMap::find(k): payload of the predecessor range if it contains k. -/
def rmFind (m : List (Nat × Nat × Nat)) (k : Nat) : Option Nat :=
  match (m.filter (fun e => decide (e.1 ≤ k))).getLast? with
  | none => none
  | some e => if k < e.2.1 then some e.2.2 else none

/-- RangeMap::insert(lo, hi, v), keeping the list sorted by lo. -/
def rmInsert (m : List (Nat × Nat × Nat)) (lo hi v : Nat) : List (Nat × Nat × Nat) :=
  match m with
  | [] => [(lo, hi, v)]
  | e :: es =>
    if lo < e.1 then (lo, hi, v) :: e :: es
    else if lo = e.1 then e :: es
    else e :: rmInsert es lo hi v

/-- RangeMap::remove(lo): drop the entry with exactly this lo, returning
its payload. -/
def rmRemove (m : List (Nat × Nat × Nat)) (lo : Nat) :
    Option Nat × List (Nat × Nat × Nat) :=
  match m with
  | [] => (none, [])
  | e :: es =>
    if e.1 = lo then (some e.2.2, es)
    else
      let r := rmRemove es lo
      (r.1, e :: r.2)

/-! ### Working-set policy (ws.h) -/

/-- The state of WS<K, N>: the range map from ranges to slot indices, the
per-slot endpoints and recency counters (counter 0 = free slot), the next
MRU stamp, and the purge flag.  The slot arrays are uninitialized in the
source; their dead slots are modelled as 0. -/
structure WSState where
  lruMap : List (Nat × Nat × Nat)
  lowKeys : List Nat
  highKeys : List Nat
  counters : List Nat
  next : Nat
  nextShouldPurge : Bool
deriving Repr, DecidableEq

/-- WS::WS(): counters zero-filled, next = 1. -/
def wsInit (n : Nat) : WSState :=
  ⟨[], List.replicate n 0, List.replicate n 0, List.replicate n 0, 1, false⟩

/-- WS::set_mru(i): counters[i] = next++ (a 64-bit fetch_add). -/
def setMru (w : WSState) (i : Nat) : WSState :=
  { w with counters := w.counters.set i w.next, next := (w.next + 1) % u64 }

/-- The scan of ws.h for the slot with the least counter: first strict
minimum, starting from the sentinel (size_t)-1. -/
def scanMinGo : List Nat → Nat → Nat → Nat → Nat × Nat
  | [], best, bestC, _ => (best, bestC)
  | c :: cs, best, bestC, pos =>
    if c < bestC then scanMinGo cs pos c (pos + 1)
    else scanMinGo cs best bestC (pos + 1)

/-- Index and value of the least counter (the LRU, or a free slot). -/
def scanMinIdx (counters : List Nat) : Nat × Nat :=
  scanMinGo counters 0 (u64 - 1) 0

/-- WS::touch(kl, kh, k): if k lies in a stored range, stamp that slot MRU
and report hot; otherwise, when full set the purge flag and report cold;
when the endpoints kl or kh lie in stored ranges (weird_overlaps) report
cold; else install [kl, kh) in a free slot, stamp it MRU, report hot. -/
def wsTouch (n : Nat) (w : WSState) (kl kh k : Nat) : WSState × Bool :=
  match rmFind w.lruMap k with
  | some i => (setMru w i, true)
  | none =>
    if w.lruMap.length = n then
      ({ w with nextShouldPurge := true }, false)
    else if (rmFind w.lruMap kl).isSome || (rmFind w.lruMap kh).isSome then
      (w, false)
    else
      let lru := (scanMinIdx w.counters).1
      let w2 := { w with lowKeys := w.lowKeys.set lru kl,
                         highKeys := w.highKeys.set lru kh,
                         lruMap := rmInsert w.lruMap kl kh lru }
      (setMru w2 lru, true)

/-- WS::remove(kl, kh): delete the map entry with low key kl, free its slot
and overwrite the slot endpoints with the 0xDEADBEEF marker, clear the
purge flag (the kh argument is ignored by the source). -/
def wsRemove (w : WSState) (kl : Nat) (_kh : Nat) : WSState :=
  let r := rmRemove w.lruMap kl
  match r.1 with
  | some idx =>
    { w with lruMap := r.2, counters := w.counters.set idx 0,
             lowKeys := w.lowKeys.set idx 0xDEADBEEF,
             highKeys := w.highKeys.set idx 0xDEADBEEF,
             nextShouldPurge := false }
  | none => { w with lruMap := r.2, nextShouldPurge := false }

/-- WS::needs_purge(): the map is full and the flag is set. -/
def wsNeedsPurge (n : Nat) (w : WSState) : Bool :=
  decide (w.lruMap.length = n) && w.nextShouldPurge

/-- WS::purge_range(): endpoints of the slot holding the least counter. -/
def wsPurgeRange (w : WSState) : Nat × Nat :=
  let lru := (scanMinIdx w.counters).1
  (w.lowKeys.getD lru 0, w.highKeys.getD lru 0)

/-- The ranges currently stored in the WS (its range map), as pairs. -/
def wsRanges (w : WSState) : List (Nat × Nat) :=
  w.lruMap.map (fun e => (e.1, e.2.1))

/-! ### Hot cache (the cuckoohash_map hc member)

Point operations with the libcuckoo semantics: insert only inserts when the
key is absent (a present key keeps its old value), find copies the value
out, erase removes the key.  lock_table() iteration is the identity on the
entry list. -/

/-- cuckoohash_map::find(k, result). -/
def hcFind (hc : List (Nat × Nat)) (k : Nat) : Option Nat :=
  match hc.find? (fun e => decide (e.1 = k)) with
  | some e => some e.2
  | none => none

/-- cuckoohash_map::insert(k, v): no effect when k is already present. -/
def hcInsert (hc : List (Nat × Nat)) (k v : Nat) : List (Nat × Nat) :=
  if (hcFind hc k).isSome then hc else (k, v) :: hc

/-- cuckoohash_map::erase(k). -/
def hcErase (hc : List (Nat × Nat)) (k : Nat) : List (Nat × Nat) :=
  hc.filter (fun e => decide (e.1 ≠ k))

/-- The keys present in the hot cache. -/
def hcKeys (hc : List (Nat × Nat)) : List Nat := hc.map Prod.fst

/-! ### The hybrid coordinator (BTree<Key, Value, WSSize>) -/

/-- The WSSize template parameter of the instantiations under test
(default 10). -/
def wsCapacity : Nat := 10

/-- The full sequential state of a BTree: root tree, policy, hot cache. -/
structure BTreeState where
  tree : Node
  ws : WSState
  hc : List (Nat × Nat)
deriving Repr

/-- The per-level bookkeeping of insert_inner: the cumulative is_leftmost /
is_rightmost flags and the min/max parent keys (initialized to 0 as in the
source). -/
structure DescentAcc where
  isLeftmost : Bool
  isRightmost : Bool
  minPK : Nat
  maxPK : Nat
deriving Repr, DecidableEq

/-- Initial accumulator of insert_inner. -/
def insAccInit : DescentAcc := ⟨true, true, 0, 0⟩

/-- The flag and min/max update of insert_inner at one inner node: clear
is_rightmost when parent_idx < count - 1, otherwise (else-if) clear
is_leftmost when parent_idx > 0; then select the candidate range with the
updated flags, fabricating the missing endpoint from inner->maxEntries on a
so-far-rightmost or so-far-leftmost descent.  The source reads
inner->keys[parent_idx]; when parent_idx == count (a descent past the last
separator) that slot is never initialized by the C++ (the constructor's
fill is commented out and makeRoot / insert / split only write live slots),
so this read, modelled as 0 by getD, is heap garbage in the program.
Statements about the installed range therefore carry the hypothesis
lowerBound keys k < keys.length, under which every slot read here is live;
the C1/C3 observables are invariant over the dead slot's content. -/
def insUpd (acc : DescentAcc) (keys : List Nat) (i : Nat) : DescentAcc :=
  let rm := if i < keys.length - 1 then false else acc.isRightmost
  let lm := if ¬ i < keys.length - 1 ∧ 0 < i then false else acc.isLeftmost
  if rm then
    ⟨lm, rm, keys.getD i 0, wadd (keys.getD i 0) innerMaxEntries⟩
  else if lm then
    ⟨lm, rm, wsub (keys.getD i 0) innerMaxEntries, keys.getD i 0⟩
  else
    ⟨lm, rm, keys.getD i 0, keys.getD (i + 1) 0⟩

/-- The endpoint fix-up insert_inner applies at the leaf: a key below the
estimated minimum gives [k - LeafMax, k + 1), a key at or above the
estimated maximum gives [k, k + LeafMax). -/
def adjustRange (acc : DescentAcc) (k : Nat) : Nat × Nat :=
  if k < acc.minPK then (wsub k leafMaxEntries, wadd k 1)
  else if acc.maxPK ≤ k then (k, wadd k leafMaxEntries)
  else (acc.minPK, acc.maxPK)

/-- The pairs the purge enumerates from the locked hot cache: the entries
whose keys lie in [purge_low, purge_high). -/
def purgedPairs (s : BTreeState) : List (Nat × Nat) :=
  let r := wsPurgeRange s.ws
  s.hc.filter (fun e => decide (r.1 ≤ e.1) && decide (e.1 < r.2))

/-- States passed through by the erase loop of the purge, one per erased
key, in order. -/
def eraseTrace : BTreeState → List (Nat × Nat) → List BTreeState
  | _, [] => []
  | s, (k, _) :: rest =>
    let s2 := { s with hc := hcErase s.hc k }
    s2 :: eraseTrace s2 rest

/-- The purge under the big write lock, as the sequence of states it passes
through: the state after enumerating the range's pairs from the hot cache,
then after bulk-inserting them into the tree, then after removing the range
from the WS, then after each hot-cache erase. -/
def purgeTrace (s : BTreeState) : List BTreeState :=
  let r := wsPurgeRange s.ws
  let kvs := purgedPairs s
  let s1 := { s with tree := bulkInsert s.tree kvs }
  let s2 := { s1 with ws := wsRemove s1.ws r.1 r.2 }
  s :: s1 :: s2 :: eraseTrace s2 kvs

/-- The state after a complete purge. -/
def purgeState (s : BTreeState) : BTreeState := (purgeTrace s).getLastD s

/-- insert_inner(k, v, false): the eager-split descent, then at the leaf:
the root leaf gets a plain insertion; otherwise, if the policy wants a
purge, purge under the write lock and restart; otherwise touch the policy
with the estimated range and either write to the hot cache (hot) or do the
plain leaf insertion (cold).  The outer fuel only bounds purge restarts;
sequentially a purge is immediately followed by a completing attempt. -/
def insertStateLoop : Nat → BTreeState → Nat → Nat → BTreeState
  | 0, s, _, _ => s
  | fuel + 1, s, k, v =>
    match loopD insUpd insAccInit (treeFuel s.tree) s.tree k with
    | none => s
    | some (t2, acc, path, ks, ps) =>
      if path.isEmpty then
        let l := leafInsert ks ps k v
        { s with tree := replaceLeaf t2 path l.1 l.2 }
      else
        let r := adjustRange acc k
        if wsNeedsPurge wsCapacity s.ws then
          insertStateLoop fuel (purgeState { s with tree := t2 }) k v
        else
          let tb := wsTouch wsCapacity s.ws r.1 r.2 k
          if tb.2 then
            { s with tree := t2, ws := tb.1, hc := hcInsert s.hc k v }
          else
            let l := leafInsert ks ps k v
            { s with tree := replaceLeaf t2 path l.1 l.2, ws := tb.1 }

/-- BTree::insert(k, v). -/
def insertState (s : BTreeState) (k v : Nat) : BTreeState :=
  insertStateLoop 4 s k v

/-- BTree::lookup(k, result): consult the hot cache first, then descend the
tree; succ0 and res0 are the values the uninitialized stack variables
success and result of the source happen to hold, which the function
returns unchanged when the key is in neither place. -/
def lookupState (s : BTreeState) (k : Nat) (succ0 : Bool) (res0 : Nat) : Bool × Nat :=
  match hcFind s.hc k with
  | some v => (true, v)
  | none =>
    let lp := descendLeaf s.tree k
    let pos := lowerBound lp.1 k
    if pos < lp.1.length ∧ lp.1.getD pos 0 = k then (true, lp.2.getD pos 0)
    else (succ0, res0)

/-- BTree::scan(k, range, output): descend to the leaf for k, copy at most
range payloads starting at lowerBound(k), stop at the end of the leaf;
returns the count written and the written values. -/
def scanState (s : BTreeState) (k : Nat) (range : Nat) : Nat × List Nat :=
  let lp := descendLeaf s.tree k
  let pos := lowerBound lp.1 k
  let out := (lp.2.drop pos).take range
  (out.length, out)

/-- BTree::BTree(): a single empty leaf as root, fresh policy, empty cache. -/
def initState : BTreeState :=
  ⟨.leaf [] [], wsInit wsCapacity, []⟩

/-- Run a sequence of insertions. -/
def runInserts (s : BTreeState) (ops : List (Nat × Nat)) : BTreeState :=
  ops.foldl (fun s kv => insertState s kv.1 kv.2) s

/-- A small state with a purge pending: one hot range [0, 100) at slot 0,
the purge flag set, and one cached pair (5, 50). -/
def c2State : BTreeState :=
  ⟨.leaf [] [], ⟨[(0, 100, 0)], [0], [100], [1], 2, true⟩, [(5, 50)]⟩

/-! ### Supporting lemmas -/

theorem lowerBoundGo_all_lt {keys : List Nat} {k : Nat}
    (hall : ∀ x ∈ keys, x < k) :
    ∀ fuel lower upper, upper ≤ keys.length → lower < upper → upper - lower ≤ fuel →
      lowerBoundGo keys k fuel lower upper = upper := by
  intro fuel
  induction fuel with
  | zero => intro lower upper _ h2 h3; omega
  | succ fuel ih =>
    intro lower upper h1 h2 h3
    have hmidlt : (upper - lower) / 2 + lower < upper := by omega
    have hmem : keys.getD ((upper - lower) / 2 + lower) 0 ∈ keys := by
      have hm : (upper - lower) / 2 + lower < keys.length := by omega
      rw [List.getD_eq_getElem _ _ hm]
      exact List.getElem_mem hm
    have hx : keys.getD ((upper - lower) / 2 + lower) 0 < k := hall _ hmem
    simp only [lowerBoundGo]
    rw [if_neg (by omega), if_pos hx]
    by_cases hc : (upper - lower) / 2 + lower + 1 < upper
    · rw [if_pos hc]
      exact ih _ _ h1 (by omega) (by omega)
    · rw [if_neg hc]
      omega

/-- When every stored key is below k, the binary search returns count. -/
theorem lowerBound_all_lt {keys : List Nat} {k : Nat}
    (hne : keys ≠ []) (hall : ∀ x ∈ keys, x < k) :
    lowerBound keys k = keys.length := by
  have hlen : 0 < keys.length := List.length_pos.mpr hne
  exact lowerBoundGo_all_lt hall _ 0 keys.length le_rfl hlen (by omega)

/-- The binary search never answers beyond count (on a nonempty array). -/
theorem lowerBoundGo_le {keys : List Nat} {k : Nat} :
    ∀ fuel lower upper, lower < upper →
      lowerBoundGo keys k fuel lower upper ≤ upper := by
  intro fuel
  induction fuel with
  | zero => intro lower upper h; simpa [lowerBoundGo] using h.le
  | succ fuel ih =>
    intro lower upper h
    have hmidlt : (upper - lower) / 2 + lower < upper := by omega
    simp only [lowerBoundGo]
    split
    · split
      · exact le_trans (ih _ _ (by omega)) (by omega)
      · omega
    · split
      · split
        · exact ih _ _ (by omega)
        · omega
      · omega

theorem lowerBound_le {keys : List Nat} {k : Nat} (hne : keys ≠ []) :
    lowerBound keys k ≤ keys.length :=
  lowerBoundGo_le _ 0 keys.length (List.length_pos.mpr hne)

theorem runInserts_append (s : BTreeState) (l1 l2 : List (Nat × Nat)) :
    runInserts s (l1 ++ l2) = runInserts (runInserts s l1) l2 := by
  simp [runInserts, List.foldl_append]

/-- Inserting into a non-full root leaf is the plain leaf insertion; the
policy and the cache are not involved. -/
theorem insertState_root_leaf (ks ps : List Nat) (w : WSState) (hcl : List (Nat × Nat))
    (k v : Nat) (h : ks.length < leafMaxEntries) :
    insertState ⟨.leaf ks ps, w, hcl⟩ k v =
      ⟨.leaf (leafInsert ks ps k v).1 (leafInsert ks ps k v).2, w, hcl⟩ := by
  have hfull : isFullNode (.leaf ks ps) = false := by
    simp only [isFullNode, decide_eq_false_iff_not]
    omega
  have htf : treeFuel (.leaf ks ps) = 2 := by
    simp only [treeFuel, fullCount, heightN, if_neg (Nat.ne_of_lt h)]
  rw [insertState]
  rw [show (4 : Nat) = 3 + 1 from rfl]
  rw [insertStateLoop, htf]
  rw [show (2 : Nat) = 1 + 1 from rfl]
  rw [loopD, hfull]
  simp only [Bool.false_eq_true, if_false, goD, List.isEmpty_nil, replaceLeaf, if_true]

/-- The ascending key list 1, 2, ..., n. -/
def ascList (n : Nat) : List Nat := (List.range n).map (fun i => i + 1)

/-- The sequential bulk-load prefix: insert (i, i) for i = 1, ..., n. -/
def ascPairs (n : Nat) : List (Nat × Nat) := (List.range n).map (fun i => (i + 1, i + 1))

theorem ascList_lt {n x : Nat} (hx : x ∈ ascList n) : x < n + 1 := by
  simp only [ascList, List.mem_map, List.mem_range] at hx
  obtain ⟨i, hi, rfl⟩ := hx
  omega

theorem leafInsert_asc (n : Nat) :
    leafInsert (ascList n) (ascList n) (n + 1) (n + 1) = (ascList (n + 1), ascList (n + 1)) := by
  cases n with
  | zero => rfl
  | succ m =>
    have hne : ascList (m + 1) ≠ [] := by simp [ascList, List.range_succ]
    have hlb : lowerBound (ascList (m + 1)) (m + 1 + 1) = (ascList (m + 1)).length :=
      lowerBound_all_lt hne (fun x hx => ascList_lt hx)
    have hlen : (ascList (m + 1)).length = m + 1 := by simp [ascList]
    rw [leafInsert, if_pos (by rw [hlen]; omega)]
    rw [hlb, if_neg (by omega)]
    have : ∀ l : List Nat, l.length = m + 1 → l.insertIdx (ascList (m + 1)).length (m + 2) =
        l ++ [m + 2] := by
      intro l hl
      rw [hlen, ← hl, List.insertIdx_length_self]
    rw [this _ hlen]
    simp [ascList, List.range_succ]

/-- Loading keys 1, ..., n (n within leaf capacity) one by one from the
fresh structure produces the single root leaf holding them in order, an
untouched policy and an empty cache. -/
theorem runInserts_ascPairs (n : Nat) (hn : n ≤ leafMaxEntries) :
    runInserts initState (ascPairs n) =
      ⟨.leaf (ascList n) (ascList n), wsInit wsCapacity, []⟩ := by
  induction n with
  | zero => rfl
  | succ m ih =>
    have hm : m ≤ leafMaxEntries := by omega
    have hstep : ascPairs (m + 1) = ascPairs m ++ [(m + 1, m + 1)] := by
      simp [ascPairs, List.range_succ]
    rw [hstep, runInserts_append, ih hm]
    have hlen : (ascList m).length < leafMaxEntries := by
      simpa [ascList] using hn
    show insertState ⟨.leaf (ascList m) (ascList m), wsInit wsCapacity, []⟩ (m + 1) (m + 1) = _
    rw [insertState_root_leaf _ _ _ _ _ _ hlen, leafInsert_asc]

/-! ### Claim theorems -/

set_option maxRecDepth 200000 in
/-- C1 (code bug): sequential readback fails on the code.  After the insert
sequence (1,1) ... (255,255), (300,7), (300,8) from the fresh structure, the
pair (300,8) is the last insert of key 300 (so it is inserted and not later
overwritten), yet lookup(300) returns (true, 7): the first insert of 300 was
redirected to the hot cache, and the hot cache's insert (libcuckoo
cuckoohash_map::insert) does not overwrite a present key, so the second
insert of 300 left the stale value 7 in place and lookup serves it from the
cache.  The claim requires (true, 8). -/
theorem c1_readback_failing_eval :
    (ascPairs 255 ++ [(300, 7), (300, 8)]).reverse.find? (fun kv => kv.1 = 300) =
        some (300, 8) ∧
      lookupState (runInserts initState (ascPairs 255 ++ [(300, 7), (300, 8)])) 300 true 0 =
        (true, 7) ∧
      ((true, 7) : Bool × Nat) ≠ (true, 8) := by
  refine ⟨by decide, ?_, by decide⟩
  rw [runInserts_append, runInserts_ascPairs 255 (by decide)]
  decide

set_option maxRecDepth 200000 in
/-- C3 (code bug): upsert fails on the code for keys classified hot.  From
the state reached by inserting (1,1) ... (255,255) (which makes the root an
inner node, so subsequent inserts consult the policy), insert(300, 7)
followed by insert(300, 8) followed by lookup(300) returns (true, 7), not
(true, 8): both inserts of 300 are classified hot, and the hot cache's
insert (libcuckoo cuckoohash_map::insert) does not overwrite the value of a
present key, unlike the upsert performed by BTreeLeaf::insert on the tree
path. -/
theorem c3_upsert_failing_eval :
    lookupState (insertState (insertState (runInserts initState (ascPairs 255)) 300 7) 300 8)
        300 false 0 = (true, 7) ∧
      ((true, 7) : Bool × Nat) ≠ (true, 8) := by
  refine ⟨?_, by decide⟩
  rw [runInserts_ascPairs 255 (by decide)]
  decide

/-- C4 (code bug): for a key never inserted, the boolean result of lookup is
not a determinate false: BTree::lookup declares bool success without an
initializer and only assigns it on the found path, so on the absent path it
returns whatever the stack slot held.  Modelling that slot's content as an
explicit parameter: looking up 42 in the fresh structure returns true when
the garbage is true and false when it is false — the result is exactly the
uninitialized value, though the function's own documentation promises
false. -/
theorem c4_absence_returns_uninitialized :
    lookupState initState 42 true 0 = (true, 0) ∧
      lookupState initState 42 false 0 = (false, 0) := by
  decide

/-- Two half-open ranges overlap. -/
def rangesOverlap (a b : Nat × Nat) : Bool :=
  decide (max a.1 b.1 < min a.2 b.2)

/-- All ranges in the list are pairwise disjoint. -/
def pairwiseDisjointB : List (Nat × Nat) → Bool
  | [] => true
  | r :: rs => rs.all (fun r2 => !rangesOverlap r r2) && pairwiseDisjointB rs

/-- C7 (counterexample): on a leaf with count = 3 and keys [10, 20, 30],
split keeps only 1 entry (not 3 - 3/2 = 2 as the claim states), moves
[20, 30] into the fresh leaf, and sets sep = 10 (not keys[mid - 1] = 20 for
the claimed mid = 2). -/
theorem c7_split_cex :
    leafSplit [10, 20, 30] [1, 2, 3] = (([10], [1]), ([20, 30], [2, 3]), 10) ∧
      (leafSplit [10, 20, 30] [1, 2, 3]).1.1.length ≠ 3 - 3 / 2 ∧
      (leafSplit [10, 20, 30] [1, 2, 3]).2.2 ≠ [10, 20, 30].getD (3 - 3 / 2 - 1) 0 := by
  decide

/-- C7 (amended): for a leaf with 2 <= n <= LeafMax entries, split keeps
entries [0 .. n/2) in the original leaf (n/2 of them), moves entries
[n/2 .. n) into the fresh leaf (n - n/2 of them), and sets
sep = keys[n/2 - 1]; so for odd n the fresh leaf receives the larger half,
not the original. -/
theorem c7_split_amended (keys pls : List Nat) (h2 : 2 ≤ keys.length)
    (hmax : keys.length ≤ leafMaxEntries) (hp : pls.length = keys.length) :
    (leafSplit keys pls).1.1 = keys.take (keys.length / 2) ∧
      (leafSplit keys pls).1.2 = pls.take (keys.length / 2) ∧
      (leafSplit keys pls).2.1.1 = keys.drop (keys.length / 2) ∧
      (leafSplit keys pls).2.1.2 = pls.drop (keys.length / 2) ∧
      (leafSplit keys pls).2.2 = keys.getD (keys.length / 2 - 1) 0 ∧
      (leafSplit keys pls).1.1.length = keys.length / 2 ∧
      (leafSplit keys pls).2.1.1.length = keys.length - keys.length / 2 := by
  have hkeep : keys.length - (keys.length - keys.length / 2) = keys.length / 2 := by omega
  have hdk : (keys.drop (keys.length / 2)).take (keys.length - keys.length / 2) =
      keys.drop (keys.length / 2) := by
    apply List.take_of_length_le
    simp
  have hdp : (pls.drop (keys.length / 2)).take (keys.length - keys.length / 2) =
      pls.drop (keys.length / 2) := by
    apply List.take_of_length_le
    simp [hp]
  refine ⟨?_, ?_, ?_, ?_, ?_, ?_, ?_⟩ <;>
    simp [leafSplit, hkeep, hdk, hdp, List.length_take, List.length_drop] <;> omega

/-- C7 witness: the amended split equations evaluated on a 5-entry leaf. -/
theorem c7_split_amended_witness :
    (leafSplit [10, 20, 30, 40, 50] [1, 2, 3, 4, 5]).2.2 = 20 ∧
      (leafSplit [10, 20, 30, 40, 50] [1, 2, 3, 4, 5]).1.1.length = 2 ∧
      (leafSplit [10, 20, 30, 40, 50] [1, 2, 3, 4, 5]).2.1.1.length = 3 := by
  have h := c7_split_amended [10, 20, 30, 40, 50] [1, 2, 3, 4, 5]
    (by decide) (by decide) (by decide)
  refine ⟨?_, ?_, ?_⟩
  · rw [h.2.2.2.2.1]; decide
  · rw [h.2.2.2.2.2.1]; decide
  · rw [h.2.2.2.2.2.2]; decide

/-- C5 (counterexample): the ranges stored in the WS are not pairwise
disjoint.  From the empty policy, touch(5, 7, 5) installs [5, 7); then
touch(0, 100, 50) installs [0, 100), because weird_overlaps only asks
whether the new endpoints 0 and 100 lie inside a stored range — it does not
detect that [0, 100) strictly contains [5, 7).  The stored ranges then
overlap. -/
theorem c5_ws_disjoint_cex :
    wsRanges (wsTouch wsCapacity (wsTouch wsCapacity (wsInit wsCapacity) 5 7 5).1 0 100 50).1 =
        [(0, 100), (5, 7)] ∧
      pairwiseDisjointB
        (wsRanges (wsTouch wsCapacity
          (wsTouch wsCapacity (wsInit wsCapacity) 5 7 5).1 0 100 50).1) = false := by
  decide

/-- C5 (amended): what touch does guarantee about overlap: a touch that
installs a new range (it returns hot for a key not already inside a stored
range) only does so when neither endpoint kl nor kh lies inside any stored
range, and the installed map is exactly the old map with [kl, kh) added at
the free slot; ranges that strictly contain a stored range still get
installed, so pairwise disjointness of the stored ranges does not hold in
general. -/
theorem c5_touch_endpoints_amended (n : Nat) (w : WSState) (kl kh k : Nat)
    (hmiss : rmFind w.lruMap k = none) (hhot : (wsTouch n w kl kh k).2 = true) :
    rmFind w.lruMap kl = none ∧ rmFind w.lruMap kh = none ∧
      (wsTouch n w kl kh k).1.lruMap =
        rmInsert w.lruMap kl kh (scanMinIdx w.counters).1 := by
  rw [wsTouch, hmiss] at hhot ⊢
  by_cases h1 : w.lruMap.length = n
  · rw [if_pos h1] at hhot; simp at hhot
  · rw [if_neg h1] at hhot ⊢
    by_cases h2 : (rmFind w.lruMap kl).isSome || (rmFind w.lruMap kh).isSome
    · rw [if_pos h2] at hhot; simp at hhot
    · rw [if_neg h2] at hhot ⊢
      simp only [Bool.or_eq_true, not_or, Option.not_isSome_iff_eq_none] at h2
      exact ⟨h2.1, h2.2, rfl⟩

/-- C5 witness: the amended endpoint guarantee evaluated on the first
install from the empty policy. -/
theorem c5_touch_endpoints_amended_witness :
    rmFind (wsInit wsCapacity).lruMap 5 = none ∧
      (wsTouch wsCapacity (wsInit wsCapacity) 5 7 5).2 = true ∧
      (wsTouch wsCapacity (wsInit wsCapacity) 5 7 5).1.lruMap = [(5, 7, 0)] := by
  have h := c5_touch_endpoints_amended wsCapacity (wsInit wsCapacity) 5 7 5
    (by decide) (by decide)
  refine ⟨by decide, by decide, ?_⟩
  rw [h.2.2]
  decide

/-- C8: the scan contract.  The result of scan is independent of the policy
and of the hot cache (scan never reads them, so a key present only in the
hot cache is invisible to scan); the count n satisfies n <= range and
equals min(range, leafCount - pos); and the values written are exactly the
payloads of the leaf reached by the lower_bound descent, from position
lower_bound(k) up to the end of the leaf or until range values are
copied. -/
theorem c8_scan_contract (t : Node) (w1 w2 : WSState) (h1 h2 : List (Nat × Nat))
    (k range : Nat) :
    scanState ⟨t, w1, h1⟩ k range = scanState ⟨t, w2, h2⟩ k range ∧
      (scanState ⟨t, w1, h1⟩ k range).1 ≤ range ∧
      (scanState ⟨t, w1, h1⟩ k range).2 =
        ((descendLeaf t k).2.drop (lowerBound (descendLeaf t k).1 k)).take range ∧
      (scanState ⟨t, w1, h1⟩ k range).1 =
        min range ((descendLeaf t k).2.length - lowerBound (descendLeaf t k).1 k) := by
  refine ⟨rfl, ?_, rfl, ?_⟩
  · simp [scanState]
  · simp [scanState]

/-! ### Helper lemmas for the descent -/

/-- The child walker agrees with list indexing. -/
theorem goChild_eq {α : Type} (upd : α → List Nat → Nat → α) (cs : List Node)
    (i k : Nat) (a : α) :
    goChild upd cs i k a =
      match cs[i]? with
      | none => .noChild
      | some c =>
        if isFullNode c then .fullChild c
        else
          match goD upd c k a with
          | .didSplit c2 => .splitBelow c2
          | .leafFound a2 p ks ps => .leafBelow a2 p ks ps := by
  induction cs generalizing i with
  | nil => cases i <;> rfl
  | cons c cs ih =>
    cases i with
    | zero => simp [goChild]
    | succ j => simpa [goChild] using ih j

/-- A node that is a leaf with spare capacity. -/
def isNonFullLeafB : Node → Bool
  | .leaf ks _ => decide (ks.length < leafMaxEntries)
  | .inner _ _ => false

theorem fullCountL_nonfull_leaves {cs : List Node}
    (h : ∀ c ∈ cs, isNonFullLeafB c = true) : fullCountL cs = 0 := by
  induction cs with
  | nil => rfl
  | cons c cs ih =>
    have hc := h c (by simp)
    have hrest : fullCountL cs = 0 := ih (fun d hd => h d (by simp [hd]))
    cases c with
    | leaf ks ps =>
      simp only [isNonFullLeafB, decide_eq_true_eq] at hc
      simp [fullCountL, fullCount, Nat.ne_of_lt hc, hrest]
    | inner ks cs2 => simp [isNonFullLeafB] at hc

theorem heightL_nonfull_leaves {cs : List Node}
    (h : ∀ c ∈ cs, isNonFullLeafB c = true) : heightL cs = 0 := by
  induction cs with
  | nil => rfl
  | cons c cs ih =>
    have hc := h c (by simp)
    have hrest : heightL cs = 0 := ih (fun d hd => h d (by simp [hd]))
    cases c with
    | leaf ks ps => simp [heightL, heightN, hrest]
    | inner ks cs2 => simp [isNonFullLeafB] at hc

/-- The counter scan never moves off its current best when no later counter
is strictly smaller. -/
theorem scanMinGo_noupdate {cs : List Nat} {bestC : Nat}
    (h : ∀ x ∈ cs, ¬ x < bestC) :
    ∀ best pos, scanMinGo cs best bestC pos = (best, bestC) := by
  induction cs with
  | nil => intro best pos; rfl
  | cons c cs ih =>
    intro best pos
    rw [scanMinGo, if_neg (h c (by simp))]
    exact ih (fun x hx => h x (by simp [hx])) best (pos + 1)

/-- On all-zero counters the scan settles on slot 0 immediately. -/
theorem scanMinIdx_replicate_zero {n : Nat} (hn : 0 < n) :
    scanMinIdx (List.replicate n 0) = (0, 0) := by
  obtain ⟨m, rfl⟩ : ∃ m, n = m + 1 := ⟨n - 1, by omega⟩
  rw [List.replicate_succ, scanMinIdx, scanMinGo, if_pos (by decide)]
  exact scanMinGo_noupdate (by simp) 0 1

/-- A touch on the empty policy always installs into slot 0 and reports
hot. -/
theorem wsTouch_empty {n : Nat} (hn : 0 < n) (a b k : Nat) :
    wsTouch n (wsInit n) a b k =
      (⟨[(a, b, 0)], (List.replicate n 0).set 0 a, (List.replicate n 0).set 0 b,
        (List.replicate n 0).set 0 1, 2, false⟩, true) := by
  have h2 : (2 : Nat) % u64 = 2 := Nat.mod_eq_of_lt (by decide)
  have hfind : ∀ x, rmFind ([] : List (Nat × Nat × Nat)) x = none := fun _ => rfl
  have hs : (scanMinIdx (List.replicate n 0)).1 = 0 := by
    rw [scanMinIdx_replicate_zero hn]
  simp only [wsTouch, wsInit, hfind, List.length_nil, Option.isSome_none, Bool.or_self,
    if_neg (show ¬ (0 = n) by omega), Bool.false_eq_true, if_false, hs, setMru, rmInsert]
  simp [h2]

set_option maxRecDepth 400000 in
/-- C9 (counterexample): on the insert descent through the (well-shaped)
root [1000, 2000, 3000] with four leaf children, inserting k = 1600 visits
child index i = 1 with 0 < i < count - 1 = 2, yet the range handed to the
policy (observable as the single range installed into the empty policy) is
[1345, 1601) — produced by the leftmost-fabrication rule followed by the
at-leaf fix-up — and not [keys[1], keys[2]) = [2000, 3000) as the claim
states: the middle-index descent clears only is_rightmost, and is_leftmost
(still true) selects the fabricated range [keys[1] - 255, keys[1]) before
the fix-up rewrites it to [1600 - 255, 1601). -/
theorem c9_hot_range_cex :
    wfShapeB (.inner [1000, 2000, 3000]
        [.leaf [500] [5], .leaf [1500] [15], .leaf [2500] [25], .leaf [3500] [35]]) = true ∧
      lowerBound [1000, 2000, 3000] 1600 = 1 ∧
      wsRanges (insertState ⟨.inner [1000, 2000, 3000]
          [.leaf [500] [5], .leaf [1500] [15], .leaf [2500] [25], .leaf [3500] [35]],
        wsInit wsCapacity, []⟩ 1600 77).ws = [(1345, 1601)] ∧
      wsRanges (insertState ⟨.inner [1000, 2000, 3000]
          [.leaf [500] [5], .leaf [1500] [15], .leaf [2500] [25], .leaf [3500] [35]],
        wsInit wsCapacity, []⟩ 1600 77).ws ≠ [(2000, 3000)] := by
  refine ⟨by decide, by decide, ?_, ?_⟩ <;> decide

/-- The candidate hot range insert_inner actually computes on a descent
whose only inner node is the root (stated by the amended C9): with
i = lowerBound(k), a non-rightmost child (i < count - 1) leaves is_leftmost
set, so the estimate is [keys[i] - InnerMax, keys[i]); only i >= count - 1
keeps is_rightmost set and gives [keys[i], keys[i] + InnerMax); then the
at-leaf fix-up replaces the estimate by [k - LeafMax, k + 1) when k is
below it and by [k, k + LeafMax) when k is at or above it.  This
characterizes the program only where i < count, so that keys.getD i 0 is a
live slot: for k beyond the last separator the program's estimate starts
from the uninitialized keys[count] and the installed range depends on that
garbage, so the amended C9 is stated under lowerBound keys k <
keys.length. -/
def depthTwoEstimate (keys : List Nat) (k : Nat) : Nat × Nat :=
  let i := lowerBound keys k
  let m := keys.getD i 0
  let pre := if i < keys.length - 1 then (wsub m innerMaxEntries, m)
             else (m, wadd m innerMaxEntries)
  if k < pre.1 then (wsub k leafMaxEntries, wadd k 1)
  else if pre.2 ≤ k then (k, wadd k leafMaxEntries)
  else pre

/-- C9 (amended): for any well-shaped two-level tree (a non-full inner root
whose children are non-full leaves) and fresh policy, for every key k at or
below the last separator (lowerBound keys k < count, so that the descent
reads only initialized key slots), insert(k, v) classifies k hot and
installs exactly the range depthTwoEstimate — the fabricated range
[keys[i] - InnerMax, keys[i]) or [keys[i], keys[i] + InnerMax) corrected at
the leaf — never [keys[i], keys[i+1]): at depth two the is_leftmost flag is
never cleared by a middle child index, because clearing it sits in the
else-branch of the is_rightmost test.  For k beyond the last separator no
exact range is claimed: there the program's estimate starts from the
uninitialized read inner->keys[count] and the installed range depends on
heap garbage. -/
theorem c9_hot_range_amended (keys : List Nat) (children : List Node) (k v : Nat)
    (hc0 : List (Nat × Nat)) (hk : 1 ≤ keys.length)
    (hroot : keys.length ≠ innerMaxEntries - 1)
    (hcc : children.length = keys.length + 1)
    (hleaves : ∀ c ∈ children, isNonFullLeafB c = true)
    (hlive : lowerBound keys k < keys.length) :
    (insertState ⟨.inner keys children, wsInit wsCapacity, hc0⟩ k v).ws.lruMap =
        [((depthTwoEstimate keys k).1, (depthTwoEstimate keys k).2, 0)] ∧
      (insertState ⟨.inner keys children, wsInit wsCapacity, hc0⟩ k v).hc =
        hcInsert hc0 k v := by
  have hne : keys ≠ [] := by
    intro h
    rw [h] at hk
    simp at hk
  have hlb : lowerBound keys k ≤ keys.length := lowerBound_le hne
  have hilt : lowerBound keys k < children.length := by omega
  have hcg : children[lowerBound keys k]? = some children[lowerBound keys k] :=
    List.getElem?_eq_getElem hilt
  have hcmem : children[lowerBound keys k] ∈ children := List.getElem_mem hilt
  have hcleaf := hleaves _ hcmem
  obtain ⟨cks, cps, hceq⟩ : ∃ cks cps, children[lowerBound keys k] = .leaf cks cps := by
    cases hx : children[lowerBound keys k] with
    | leaf a b => exact ⟨a, b, rfl⟩
    | inner a b => rw [hx] at hcleaf; simp [isNonFullLeafB] at hcleaf
  rw [hceq] at hcg hcleaf
  simp only [isNonFullLeafB, decide_eq_true_eq] at hcleaf
  have hcfull : isFullNode (.leaf cks cps) = false := by
    simp only [isFullNode, decide_eq_false_iff_not]
    omega
  have hfc : fullCount (.inner keys children) = 0 := by
    rw [fullCount, fullCountL_nonfull_leaves hleaves, if_neg hroot]
  have hh : heightN (.inner keys children) = 1 := by
    rw [heightN, heightL_nonfull_leaves hleaves]
  have htf : treeFuel (.inner keys children) = 3 := by
    rw [treeFuel, hfc, hh]
  have hrfull : isFullNode (.inner keys children) = false := by
    simp only [isFullNode, decide_eq_false_iff_not]
    exact hroot
  have hgo : goD insUpd (.inner keys children) k insAccInit =
      .leafFound (insUpd insAccInit keys (lowerBound keys k)) [lowerBound keys k] cks cps := by
    rw [goD, goChild_eq, hcg]
    simp only [hcfull, Bool.false_eq_true, if_false]
    rw [goD]
  have hloop : loopD insUpd insAccInit 3 (.inner keys children) k =
      some (.inner keys children, insUpd insAccInit keys (lowerBound keys k),
        [lowerBound keys k], cks, cps) := by
    rw [show (3 : Nat) = 2 + 1 from rfl, loopD, hrfull]
    simp only [Bool.false_eq_true, if_false, hgo]
  have hrange : adjustRange (insUpd insAccInit keys (lowerBound keys k)) k =
      depthTwoEstimate keys k := by
    simp only [insUpd, insAccInit, depthTwoEstimate, adjustRange]
    by_cases hmid : lowerBound keys k < keys.length - 1
    · simp [hmid]
    · simp [hmid]
  rw [insertState, show (4 : Nat) = 3 + 1 from rfl, insertStateLoop, htf, hloop]
  simp only [List.isEmpty_cons, Bool.false_eq_true, if_false]
  rw [hrange]
  have hnp : wsNeedsPurge wsCapacity (wsInit wsCapacity) = false := by decide
  rw [hnp]
  simp only [Bool.false_eq_true, if_false]
  rw [wsTouch_empty (by decide)]
  exact ⟨rfl, rfl⟩

set_option maxRecDepth 400000 in
/-- C9 witness: the amended estimate evaluated on a concrete two-level
tree for a live-slot descent: k = 1600 lands on child index 1 of the root
[1000, 2000] (so lowerBound < count and every slot the descent reads is
initialized), and the installed range is the fabricated-then-fixed-up
[1345, 1601). -/
theorem c9_hot_range_amended_witness :
    lowerBound [1000, 2000] 1600 < [1000, 2000].length ∧
      (insertState ⟨.inner [1000, 2000]
          [.leaf [900] [9], .leaf [1500] [15], .leaf [2500] [25]],
        wsInit wsCapacity, []⟩ 1600 77).ws.lruMap = [(1345, 1601, 0)] := by
  refine ⟨by decide, ?_⟩
  have h := c9_hot_range_amended [1000, 2000]
    [.leaf [900] [9], .leaf [1500] [15], .leaf [2500] [25]] 1600 77 []
    (by decide) (by decide) (by decide) (by decide) (by decide)
  rw [h.1]
  decide

/-! ### Claim C10: bulk_insert is order-insensitive -/

theorem pairLe_total (a b : Nat × Nat) : pairLe a b = true ∨ pairLe b a = true := by
  simp only [pairLe, Bool.or_eq_true, decide_eq_true_eq, Bool.and_eq_true]
  omega

theorem pairLe_trans {a b c : Nat × Nat} (h1 : pairLe a b = true) (h2 : pairLe b c = true) :
    pairLe a c = true := by
  simp only [pairLe, Bool.or_eq_true, decide_eq_true_eq, Bool.and_eq_true] at h1 h2 ⊢
  omega

theorem pairLe_antisymm {a b : Nat × Nat} (h1 : pairLe a b = true) (h2 : pairLe b a = true) :
    a = b := by
  simp only [pairLe, Bool.or_eq_true, decide_eq_true_eq, Bool.and_eq_true] at h1 h2
  cases a
  cases b
  simp only [Prod.mk.injEq]
  omega

/-- Sorting is a function of the input's multiset only: permuted inputs
sort to the same list. -/
theorem sortPairs_canonical {l l' : List (Nat × Nat)} (h : l.Perm l') :
    sortPairs l = sortPairs l' := by
  haveI : IsTotal (Nat × Nat) (fun a b => pairLe a b = true) := ⟨pairLe_total⟩
  haveI : IsTrans (Nat × Nat) (fun a b => pairLe a b = true) :=
    ⟨fun _ _ _ => pairLe_trans⟩
  haveI : IsAntisymm (Nat × Nat) (fun a b => pairLe a b = true) :=
    ⟨fun _ _ => pairLe_antisymm⟩
  apply List.eq_of_perm_of_sorted (r := fun a b => pairLe a b = true)
  · exact (List.perm_insertionSort _ l).trans (h.trans (List.perm_insertionSort _ l').symm)
  · exact List.sorted_insertionSort _ l
  · exact List.sorted_insertionSort _ l'

/-- C10: bulk_insert is order-insensitive.  It begins by sorting its input
vector, so permuted inputs produce the same final tree; the
sorted-ascending input condition of the bulk path is established
internally, not required of the caller. -/
theorem c10_bulk_insert_order_insensitive (t : Node) (kvs kvs' : List (Nat × Nat))
    (h : kvs.Perm kvs') : bulkInsert t kvs = bulkInsert t kvs' := by
  rw [bulkInsert, bulkInsert]
  have hemp : kvs.isEmpty = kvs'.isEmpty := by
    have := h.length_eq
    cases kvs <;> cases kvs' <;> simp_all
  rw [hemp, sortPairs_canonical h]

/-- C10 witness: two permutations of the same pairs bulk-inserted into the
fresh root leaf give the same tree. -/
theorem c10_bulk_insert_order_insensitive_witness :
    bulkInsert (.leaf [] []) [(3, 33), (1, 11)] = bulkInsert (.leaf [] []) [(1, 11), (3, 33)] :=
  c10_bulk_insert_order_insensitive (.leaf [] []) [(3, 33), (1, 11)] [(1, 11), (3, 33)]
    (by decide)

/-! ### Claim C6: the LRU eviction order of the policy -/

/-- C6 (counterexample): with capacity N = 2, touching the three distinct
pairwise-disjoint nonempty ranges [20,30), [10,20), [40,50) once each (keys
25, 15, 45 inside them) does not make needs_purge() true: the second touch
is rejected by weird_overlaps, because its upper endpoint 20 lies inside
the already-stored range [20, 30), so the policy never fills up and the
purge flag is never set.  The claim says needs_purge() becomes true after
touching N + 1 distinct non-overlapping ranges. -/
theorem c6_lru_cex :
    pairwiseDisjointB [(20, 30), (10, 20), (40, 50)] = true ∧
      wsNeedsPurge 2
        ((wsTouch 2 ((wsTouch 2 ((wsTouch 2 (wsInit 2) 20 30 25).1) 10 20 15).1) 40 50 45).1) =
        false := by
  decide

/-- Touch a sequence of ranges in order. -/
def wsTouchFold (n : Nat) (w : WSState) (rs : List (Nat × Nat × Nat)) : WSState :=
  rs.foldl (fun w e => (wsTouch n w e.1 e.2.1 e.2.2).1) w

/-- The counter array after m installs into a capacity-n policy: stamps
1, ..., m followed by free slots. -/
def ascCounters (m n : Nat) : List Nat :=
  (List.range m).map (fun i => i + 1) ++ List.replicate (n - m) 0

theorem rmFind_none_of_all {m : List (Nat × Nat × Nat)} {x : Nat}
    (h : ∀ e ∈ m, ¬ (e.1 ≤ x ∧ x < e.2.1)) : rmFind m x = none := by
  rw [rmFind]
  cases hg : (m.filter (fun e => decide (e.1 ≤ x))).getLast? with
  | none => rfl
  | some e =>
    have hme : e ∈ m.filter (fun e => decide (e.1 ≤ x)) := List.mem_of_mem_getLast? hg
    have h1 : e.1 ≤ x := of_decide_eq_true (List.mem_filter.mp hme).2
    have h2 : e ∈ m := (List.mem_filter.mp hme).1
    show (if x < e.2.1 then some e.2.2 else none) = none
    rw [if_neg]
    intro hx
    exact h e h2 ⟨h1, hx⟩

theorem scanMinGo_append (xs ys : List Nat) (best bestC pos : Nat) :
    scanMinGo (xs ++ ys) best bestC pos =
      scanMinGo ys (scanMinGo xs best bestC pos).1 (scanMinGo xs best bestC pos).2
        (pos + xs.length) := by
  induction xs generalizing best bestC pos with
  | nil => simp [scanMinGo]
  | cons c cs ih =>
    have harith : pos + 1 + cs.length = pos + (cs.length + 1) := by omega
    by_cases h : c < bestC
    · simp only [List.cons_append, scanMinGo, if_pos h, List.length_cons, List.append_eq]
      rw [ih, harith]
    · simp only [List.cons_append, scanMinGo, if_neg h, List.length_cons, List.append_eq]
      rw [ih, harith]

theorem scanMinGo_asc_pos {m : Nat} (hm : 0 < m) (pos : Nat) :
    scanMinGo ((List.range m).map (fun i => i + 1)) pos (u64 - 1) pos = (pos, 1) := by
  obtain ⟨mm, rfl⟩ : ∃ mm, m = mm + 1 := ⟨m - 1, by omega⟩
  have hdec : (List.range (mm + 1)).map (fun i => i + 1) =
      1 :: (List.range mm).map (fun i => i + 1 + 1) := by
    rw [List.range_succ_eq_map, List.map_cons, List.map_map]
    rfl
  rw [hdec, scanMinGo, if_pos (by decide)]
  exact scanMinGo_noupdate (by simp) pos (pos + 1)

theorem scanMinIdx_asc_lt {m n : Nat} (hmn : m < n) :
    scanMinIdx (ascCounters m n) = (m, 0) := by
  rw [scanMinIdx, ascCounters, scanMinGo_append]
  obtain ⟨r, hr⟩ : ∃ r, n - m = r + 1 := ⟨n - m - 1, by omega⟩
  have hlen : (0 : Nat) + ((List.range m).map (fun i => i + 1)).length = m := by simp
  rw [hr, List.replicate_succ, hlen]
  rcases Nat.eq_zero_or_pos m with h0 | hpos
  · subst h0
    rw [show scanMinGo ((List.range 0).map (fun i => i + 1)) 0 (u64 - 1) 0 = (0, u64 - 1)
      from rfl]
    rw [scanMinGo, if_pos (by decide)]
    exact scanMinGo_noupdate (by simp) 0 1
  · rw [scanMinGo_asc_pos hpos]
    rw [scanMinGo, if_pos (by decide)]
    exact scanMinGo_noupdate (by simp) m (m + 1)

theorem scanMinIdx_asc_full {n : Nat} (hn : 0 < n) :
    scanMinIdx (ascCounters n n) = (0, 1) := by
  rw [scanMinIdx, ascCounters, Nat.sub_self, List.replicate_zero, List.append_nil]
  exact scanMinGo_asc_pos hn 0

theorem set_append_length {α : Type} (xs ys : List α) (v : α) :
    (xs ++ ys).set xs.length v = xs ++ ys.set 0 v := by
  induction xs with
  | nil => rfl
  | cons x xs ih => simp [List.set, ih]

theorem set_append_at {α : Type} (xs ys : List α) (v : α) (i : Nat) (h : i = xs.length) :
    (xs ++ ys).set i v = xs ++ ys.set 0 v := by
  subst h
  exact set_append_length xs ys v

theorem rmInsert_mem {m : List (Nat × Nat × Nat)} {lo hi v : Nat} {e : Nat × Nat × Nat}
    (h : e ∈ rmInsert m lo hi v) : e ∈ m ∨ e = (lo, hi, v) := by
  induction m with
  | nil => simp [rmInsert] at h; right; exact h
  | cons f fs ih =>
    rw [rmInsert] at h
    split at h
    · rcases List.mem_cons.mp h with h1 | h1
      · right; exact h1
      · left; exact h1
    · split at h
      · left; exact h
      · rcases List.mem_cons.mp h with h1 | h1
        · left; simp [h1]
        · rcases ih h1 with h2 | h2
          · left; simp [h2]
          · right; exact h2

theorem rmInsert_length_fresh {m : List (Nat × Nat × Nat)} {lo hi v : Nat}
    (h : ∀ e ∈ m, e.1 ≠ lo) : (rmInsert m lo hi v).length = m.length + 1 := by
  induction m with
  | nil => rfl
  | cons f fs ih =>
    rw [rmInsert]
    have hf : f.1 ≠ lo := h f (by simp)
    split
    · simp
    · rw [if_neg (by omega)]
      simp only [List.length_cons]
      rw [ih (fun e he => h e (by simp [he]))]

theorem take_succ_getD {α : Type} [Inhabited α] (l : List α) (m : Nat) (h : m < l.length) :
    l.take (m + 1) = l.take m ++ [l.getD m default] := by
  rw [List.take_succ, List.getElem?_eq_getElem h, List.getD_eq_getElem _ _ h]
  rfl

/-- The state of the policy after touching the first m of the ranges, for
ranges that are pairwise disjoint, nonempty, touched with an inside key,
and whose upper endpoints avoid all earlier ranges: the first m ranges
occupy slots 0 .. m-1 in touch order with recency stamps 1 .. m, and the
purge flag is clear. -/
theorem c6_invariant (n : Nat) (hbig : n + 2 < u64)
    (rs : List (Nat × Nat × Nat)) (hlen : rs.length = n + 1)
    (hin : ∀ e ∈ rs, e.1 ≤ e.2.2 ∧ e.2.2 < e.2.1)
    (hdisj : rs.Pairwise (fun a b => a.2.1 ≤ b.1 ∨ b.2.1 ≤ a.1))
    (hends : rs.Pairwise (fun a b => ¬ (a.1 ≤ b.2.1 ∧ b.2.1 < a.2.1))) :
    ∀ m, m ≤ n →
      (wsTouchFold n (wsInit n) (rs.take m)).lruMap.length = m ∧
      (∀ e ∈ (wsTouchFold n (wsInit n) (rs.take m)).lruMap,
        ∃ j, j < m ∧ e.1 = (rs.getD j default).1 ∧ e.2.1 = (rs.getD j default).2.1 ∧
          e.2.2 = j) ∧
      (wsTouchFold n (wsInit n) (rs.take m)).counters = ascCounters m n ∧
      (wsTouchFold n (wsInit n) (rs.take m)).lowKeys =
        (rs.take m).map (fun e => e.1) ++ List.replicate (n - m) 0 ∧
      (wsTouchFold n (wsInit n) (rs.take m)).highKeys =
        (rs.take m).map (fun e => e.2.1) ++ List.replicate (n - m) 0 ∧
      (wsTouchFold n (wsInit n) (rs.take m)).next = m + 1 ∧
      (wsTouchFold n (wsInit n) (rs.take m)).nextShouldPurge = false := by
  have hdisjG := List.pairwise_iff_getElem.mp hdisj
  have hendsG := List.pairwise_iff_getElem.mp hends
  intro m
  induction m with
  | zero =>
    intro _
    refine ⟨rfl, by simp [wsTouchFold, wsInit], rfl, by simp [wsTouchFold, wsInit, ascCounters],
      by simp [wsTouchFold, wsInit], rfl, rfl⟩
  | succ m ih =>
    intro hm1
    have hm : m < n := by omega
    obtain ⟨hL, hM, hC, hLo, hHi, hNx, hP⟩ := ih (by omega)
    have hmrs : m < rs.length := by omega
    have htake : rs.take (m + 1) = rs.take m ++ [rs.getD m default] :=
      take_succ_getD rs m hmrs
    have hfold : wsTouchFold n (wsInit n) (rs.take (m + 1)) =
        (wsTouch n (wsTouchFold n (wsInit n) (rs.take m)) (rs.getD m default).1
          (rs.getD m default).2.1 (rs.getD m default).2.2).1 := by
      rw [htake, wsTouchFold, List.foldl_append]
      rfl
    set w := wsTouchFold n (wsInit n) (rs.take m) with hw
    have hgetm : rs.getD m default = rs[m] := List.getD_eq_getElem _ _ hmrs
    have hinm := hin rs[m] (List.getElem_mem hmrs)
    -- all three find probes fail
    have hprobe : ∀ x : Nat, (rs[m].1 ≤ x ∧ x < rs[m].2.1) ∨ x = rs[m].2.1 →
        rmFind w.lruMap x = none := by
      intro x hx
      apply rmFind_none_of_all
      intro e he hcontains
      obtain ⟨j, hj, he1, he2, _⟩ := hM e he
      have hjrs : j < rs.length := by omega
      have hgj : rs.getD j default = rs[j] := List.getD_eq_getElem _ _ hjrs
      rw [he1, he2, hgj] at hcontains
      have hinj := hin rs[j] (List.getElem_mem hjrs)
      rcases hx with ⟨hx1, hx2⟩ | rfl
      · rcases hdisjG j m hjrs hmrs (by omega) with hd | hd <;> omega
      · exact hendsG j m hjrs hmrs (by omega) ⟨hcontains.1, hcontains.2⟩
    have hfk : rmFind w.lruMap rs[m].2.2 = none := hprobe _ (Or.inl ⟨hinm.1, by omega⟩)
    have hfl : rmFind w.lruMap rs[m].1 = none := hprobe _ (Or.inl ⟨le_rfl, by omega⟩)
    have hfh : rmFind w.lruMap rs[m].2.1 = none := hprobe _ (Or.inr rfl)
    have hfresh : ∀ e ∈ w.lruMap, e.1 ≠ rs[m].1 := by
      intro e he
      obtain ⟨j, hj, he1, he2, _⟩ := hM e he
      have hjrs : j < rs.length := by omega
      have hgj : rs.getD j default = rs[j] := List.getD_eq_getElem _ _ hjrs
      rw [he1, hgj]
      have hinj := hin rs[j] (List.getElem_mem hjrs)
      rcases hdisjG j m hjrs hmrs (by omega) with hd | hd <;> omega
    rw [hfold, hgetm, wsTouch, hfk, if_neg (by omega), hfl, hfh]
    simp only [Option.isSome_none, Bool.or_self, Bool.false_eq_true, if_false]
    have hscan : (scanMinIdx w.counters).1 = m := by
      rw [hC, scanMinIdx_asc_lt hm]
    rw [hscan]
    have hlenA : ((List.range m).map (fun i => i + 1)).length = m := by simp
    have hlenT : ((rs.take m).map (fun e => (e : Nat × Nat × Nat).1)).length = m := by
      simp
      omega
    have hlenT2 : ((rs.take m).map (fun e => (e : Nat × Nat × Nat).2.1)).length = m := by
      simp
      omega
    obtain ⟨r, hr⟩ : ∃ r, n - m = r + 1 := ⟨n - m - 1, by omega⟩
    have hr2 : n - (m + 1) = r := by omega
    have hnext2 : w.next = m + 1 := hNx
    refine ⟨?_, ?_, ?_, ?_, ?_, ?_, ?_⟩
    · show (rmInsert w.lruMap rs[m].1 rs[m].2.1 m).length = m + 1
      rw [rmInsert_length_fresh hfresh, hL]
    · intro e he
      rcases rmInsert_mem he with h1 | h1
      · obtain ⟨j, hj, hj1, hj2, hj3⟩ := hM e h1
        exact ⟨j, by omega, hj1, hj2, hj3⟩
      · exact ⟨m, by omega, by rw [h1, hgetm], by rw [h1, hgetm], by rw [h1]⟩
    · show (w.counters.set m w.next) = ascCounters (m + 1) n
      have hstep : (List.range (m + 1)).map (fun i => i + 1) =
          (List.range m).map (fun i => i + 1) ++ [m + 1] := by
        rw [List.range_succ, List.map_append]
        rfl
      rw [hC, hnext2, ascCounters, ascCounters, set_append_at _ _ _ _ hlenA.symm, hr, hr2,
        List.replicate_succ, hstep]
      simp [List.set]
    · show (w.lowKeys.set m rs[m].1) = _
      rw [hLo, set_append_at _ _ _ _ hlenT.symm, hr, hr2, List.replicate_succ, htake, hgetm]
      simp [List.set, List.map_append, List.map_take, List.append_assoc]
      rw [take_succ_getD (rs.map (fun e => e.1)) m (by simpa using hmrs),
        List.getD_eq_getElem _ _ (by simpa using hmrs), List.getElem_map, List.append_assoc]
      simp
    · show (w.highKeys.set m rs[m].2.1) = _
      rw [hHi, set_append_at _ _ _ _ hlenT2.symm, hr, hr2, List.replicate_succ, htake, hgetm]
      simp [List.set, List.map_append, List.map_take, List.append_assoc]
      rw [take_succ_getD (rs.map (fun e => e.2.1)) m (by simpa using hmrs),
        List.getD_eq_getElem _ _ (by simpa using hmrs), List.getElem_map, List.append_assoc]
      simp
    · show (w.next + 1) % u64 = m + 1 + 1
      rw [hnext2]
      exact Nat.mod_eq_of_lt (by omega)
    · show w.nextShouldPurge = false
      exact hP

/-- C6 (amended): with WS capacity N, starting from the empty policy,
touching N + 1 distinct pairwise-disjoint nonempty ranges once each (each
touch with a key inside its range) makes needs_purge() true and
purge_range() return the endpoints of the first-touched range (the
least-recently touched, whose recency stamp 1 is the minimum positive
counter) — provided additionally that no range's upper endpoint lies
inside an earlier-touched range; without that proviso weird_overlaps can
reject a touch and needs_purge() can stay false (see the
counterexample). -/
theorem c6_lru_amended (n : Nat) (hn : 0 < n) (hbig : n + 2 < u64)
    (rs : List (Nat × Nat × Nat)) (hlen : rs.length = n + 1)
    (hin : ∀ e ∈ rs, e.1 ≤ e.2.2 ∧ e.2.2 < e.2.1)
    (hdisj : rs.Pairwise (fun a b => a.2.1 ≤ b.1 ∨ b.2.1 ≤ a.1))
    (hends : rs.Pairwise (fun a b => ¬ (a.1 ≤ b.2.1 ∧ b.2.1 < a.2.1))) :
    wsNeedsPurge n (wsTouchFold n (wsInit n) rs) = true ∧
      wsPurgeRange (wsTouchFold n (wsInit n) rs) =
        ((rs.getD 0 default).1, (rs.getD 0 default).2.1) := by
  have hdisjG := List.pairwise_iff_getElem.mp hdisj
  have hendsG := List.pairwise_iff_getElem.mp hends
  obtain ⟨hL, hM, hC, hLo, hHi, hNx, hP⟩ :=
    c6_invariant n hbig rs hlen hin hdisj hends n le_rfl
  have hnrs : n < rs.length := by omega
  have htake : rs.take (n + 1) = rs.take n ++ [rs.getD n default] := take_succ_getD rs n hnrs
  have hall : rs.take (n + 1) = rs := by
    rw [← hlen, List.take_length]
  have hfold : wsTouchFold n (wsInit n) rs =
      (wsTouch n (wsTouchFold n (wsInit n) (rs.take n)) (rs.getD n default).1
        (rs.getD n default).2.1 (rs.getD n default).2.2).1 := by
    conv_lhs => rw [← hall, htake]
    rw [wsTouchFold, List.foldl_append]
    rfl
  set w := wsTouchFold n (wsInit n) (rs.take n) with hw
  have hgetn : rs.getD n default = rs[n] := List.getD_eq_getElem _ _ hnrs
  have hinn := hin rs[n] (List.getElem_mem hnrs)
  have hfk : rmFind w.lruMap rs[n].2.2 = none := by
    apply rmFind_none_of_all
    intro e he hcontains
    obtain ⟨j, hj, he1, he2, _⟩ := hM e he
    have hjrs : j < rs.length := by omega
    have hgj : rs.getD j default = rs[j] := List.getD_eq_getElem _ _ hjrs
    rw [he1, he2, hgj] at hcontains
    have hinj := hin rs[j] (List.getElem_mem hjrs)
    rcases hdisjG j n hjrs hnrs (by omega) with hd | hd <;> omega
  rw [hfold, hgetn, wsTouch, hfk, if_pos hL]
  constructor
  · show wsNeedsPurge n ⟨w.lruMap, w.lowKeys, w.highKeys, w.counters, w.next, true⟩ = true
    rw [wsNeedsPurge]
    simp [hL]
  · show wsPurgeRange ⟨w.lruMap, w.lowKeys, w.highKeys, w.counters, w.next, true⟩ = _
    rw [wsPurgeRange]
    simp only [hC, scanMinIdx_asc_full hn, hLo, hHi]
    have h0 : 0 < rs.length := by omega
    have h0n : 0 < n := hn
    have hg0 : rs.getD 0 default = rs[0] := List.getD_eq_getElem _ _ h0
    have hlow : ((rs.take n).map (fun e => (e : Nat × Nat × Nat).1) ++
        List.replicate (n - n) 0).getD 0 0 = rs[0].1 := by
      have hlt : 0 < ((rs.take n).map (fun e => (e : Nat × Nat × Nat).1)).length := by
        simp
        omega
      rw [List.getD_append _ _ _ _ hlt, List.getD_eq_getElem _ _ hlt]
      simp [List.getElem_take]
    have hhigh : ((rs.take n).map (fun e => (e : Nat × Nat × Nat).2.1) ++
        List.replicate (n - n) 0).getD 0 0 = rs[0].2.1 := by
      have hlt : 0 < ((rs.take n).map (fun e => (e : Nat × Nat × Nat).2.1)).length := by
        simp
        omega
      rw [List.getD_append _ _ _ _ hlt, List.getD_eq_getElem _ _ hlt]
      simp [List.getElem_take]
    rw [hlow, hhigh, hg0]

/-- C6 witness: the amended LRU statement evaluated at capacity 2 with the
ranges [10,20), [30,40), [50,60) touched in ascending order. -/
theorem c6_lru_amended_witness :
    wsNeedsPurge 2 (wsTouchFold 2 (wsInit 2) [(10, 20, 15), (30, 40, 35), (50, 60, 55)]) =
        true ∧
      wsPurgeRange (wsTouchFold 2 (wsInit 2) [(10, 20, 15), (30, 40, 35), (50, 60, 55)]) =
        (10, 20) := by
  have h := c6_lru_amended 2 (by decide) (by decide)
    [(10, 20, 15), (30, 40, 35), (50, 60, 55)] (by decide) (by decide)
    (by decide) (by decide)
  refine ⟨h.1, ?_⟩
  rw [h.2]
  rfl

/-! ### C2: structural lemmas for splits and key preservation -/

theorem wfShapeL_iff {cs : List Node} :
    wfShapeL cs = true ↔ ∀ c ∈ cs, wfShapeB c = true := by
  induction cs with
  | nil => simp [wfShapeL]
  | cons a as ih => simp [wfShapeL, Bool.and_eq_true, ih]

theorem heightL_le {cs : List Node} {m : Nat} :
    heightL cs ≤ m ↔ ∀ c ∈ cs, heightN c ≤ m := by
  induction cs with
  | nil => simp [heightL]
  | cons a as ih => simp [heightL, Nat.max_le, ih]

theorem heightN_mem_le {cs : List Node} {c : Node} (h : c ∈ cs) :
    heightN c ≤ heightL cs :=
  heightL_le.mp le_rfl c h

theorem fullCountL_append (l1 l2 : List Node) :
    fullCountL (l1 ++ l2) = fullCountL l1 + fullCountL l2 := by
  induction l1 with
  | nil => simp [fullCountL]
  | cons a as ih => simp only [List.cons_append, fullCountL, List.append_eq, ih]; omega

theorem fullCountL_set :
    ∀ (cs : List Node) (i : Nat), i < cs.length →
      ∀ x, fullCountL (cs.set i x) + fullCount (cs.getD i (.leaf [] [])) =
        fullCountL cs + fullCount x := by
  intro cs
  induction cs with
  | nil => intro i h; simp at h
  | cons a as ih =>
    intro i h x
    cases i with
    | zero => simp only [List.set, List.getD_cons_zero, fullCountL]; omega
    | succ i =>
      simp only [List.set, List.getD_cons_succ, fullCountL]
      have := ih i (by simpa using h) x
      omega

theorem fullCountL_insertIdx :
    ∀ (cs : List Node) (n : Nat), n ≤ cs.length →
      ∀ x, fullCountL (cs.insertIdx n x) = fullCount x + fullCountL cs := by
  intro cs
  induction cs with
  | nil =>
    intro n h x
    have h0 : n = 0 := by simpa using h
    subst h0
    simp [List.insertIdx, fullCountL]
  | cons a as ih =>
    intro n h x
    cases n with
    | zero =>
      have he : (a :: as).insertIdx 0 x = x :: a :: as := by simp [List.insertIdx]
      rw [he, fullCountL, fullCountL]
    | succ n =>
      have he : (a :: as).insertIdx (n + 1) x = a :: as.insertIdx n x := by
        simp [List.insertIdx]
      rw [he, fullCountL, ih n (by simpa using h) x, fullCountL]
      omega

theorem treeKeysL_append (l1 l2 : List Node) :
    treeKeysL (l1 ++ l2) = treeKeysL l1 ++ treeKeysL l2 := by
  induction l1 with
  | nil => simp [treeKeysL]
  | cons a as ih => simp [treeKeysL, ih]

theorem treeKeysL_set_cover :
    ∀ (cs : List Node) (i : Nat) (y : Node) (x : Nat), x ∈ treeKeysL cs →
      x ∈ treeKeys (cs.getD i (.leaf [] [])) ∨ x ∈ treeKeysL (cs.set i y) := by
  intro cs
  induction cs with
  | nil => intro i y x hx; simp [treeKeysL] at hx
  | cons a as ih =>
    intro i y x hx
    rw [treeKeysL, List.mem_append] at hx
    cases i with
    | zero =>
      rcases hx with hx | hx
      · exact Or.inl (by simpa using hx)
      · right
        simp only [List.set, treeKeysL, List.mem_append]
        exact Or.inr hx
    | succ i =>
      rcases hx with hx | hx
      · right
        simp only [List.set, treeKeysL, List.mem_append]
        exact Or.inl hx
      · rcases ih i y x hx with h | h
        · exact Or.inl (by simpa [List.getD_cons_succ] using h)
        · right
          simp only [List.set, treeKeysL, List.mem_append]
          exact Or.inr h

theorem treeKeysL_set_mem :
    ∀ (cs : List Node) (i : Nat), i < cs.length → ∀ (y : Node) (x : Nat),
      x ∈ treeKeys y → x ∈ treeKeysL (cs.set i y) := by
  intro cs
  induction cs with
  | nil => intro i h; simp at h
  | cons a as ih =>
    intro i h y x hx
    cases i with
    | zero =>
      simp only [List.set, treeKeysL, List.mem_append]
      exact Or.inl hx
    | succ i =>
      simp only [List.set, treeKeysL, List.mem_append]
      exact Or.inr (ih i (by simpa using h) y x hx)

theorem treeKeysL_insertIdx_old :
    ∀ (cs : List Node) (n : Nat) (y : Node) (x : Nat), x ∈ treeKeysL cs →
      x ∈ treeKeysL (cs.insertIdx n y) := by
  intro cs
  induction cs with
  | nil => intro n y x hx; simp [treeKeysL] at hx
  | cons a as ih =>
    intro n y x hx
    cases n with
    | zero =>
      have he : (a :: as).insertIdx 0 y = y :: a :: as := by simp [List.insertIdx]
      rw [he, treeKeysL, List.mem_append]
      exact Or.inr hx
    | succ n =>
      have he : (a :: as).insertIdx (n + 1) y = a :: as.insertIdx n y := by
        simp [List.insertIdx]
      rw [he, treeKeysL, List.mem_append]
      rw [treeKeysL, List.mem_append] at hx
      rcases hx with hx | hx
      · exact Or.inl hx
      · exact Or.inr (ih n y x hx)

theorem treeKeysL_insertIdx_new :
    ∀ (cs : List Node) (n : Nat), n ≤ cs.length → ∀ (y : Node) (x : Nat),
      x ∈ treeKeys y → x ∈ treeKeysL (cs.insertIdx n y) := by
  intro cs
  induction cs with
  | nil =>
    intro n h y x hx
    have h0 : n = 0 := by simpa using h
    subst h0
    simpa [List.insertIdx, treeKeysL] using hx
  | cons a as ih =>
    intro n h y x hx
    cases n with
    | zero =>
      have he : (a :: as).insertIdx 0 y = y :: a :: as := by simp [List.insertIdx]
      rw [he, treeKeysL, List.mem_append]
      exact Or.inl hx
    | succ n =>
      have he : (a :: as).insertIdx (n + 1) y = a :: as.insertIdx n y := by
        simp [List.insertIdx]
      rw [he, treeKeysL, List.mem_append]
      exact Or.inr (ih n (by simpa using h) y x hx)

theorem nodeAtChild_getD :
    ∀ (cs : List Node) (i : Nat), i < cs.length → ∀ p,
      nodeAtChild cs i p = nodeAt (cs.getD i (.leaf [] [])) p := by
  intro cs
  induction cs with
  | nil => intro i h; simp at h
  | cons a as ih =>
    intro i h p
    cases i with
    | zero => rfl
    | succ i =>
      rw [nodeAtChild, List.getD_cons_succ]
      exact ih i (by simpa using h) p

theorem replaceChild_getD :
    ∀ (cs : List Node) (i : Nat), i < cs.length → ∀ p nk np,
      replaceChild cs i p nk np =
        cs.set i (replaceLeaf (cs.getD i (.leaf [] [])) p nk np) := by
  intro cs
  induction cs with
  | nil => intro i h; simp at h
  | cons a as ih =>
    intro i h p nk np
    cases i with
    | zero => rfl
    | succ i =>
      rw [replaceChild, List.getD_cons_succ, List.set]
      rw [ih i (by simpa using h) p nk np]

theorem ffdChild_getD :
    ∀ (cs : List Node) (i : Nat), i < cs.length → ∀ k,
      ffdChild cs i k = (ffdN (cs.getD i (.leaf [] [])) k).map (· + 1) := by
  intro cs
  induction cs with
  | nil => intro i h; simp at h
  | cons a as ih =>
    intro i h k
    cases i with
    | zero => rfl
    | succ i =>
      rw [ffdChild, List.getD_cons_succ]
      exact ih i (by simpa using h) k

theorem goChild_getD {α : Type} (upd : α → List Nat → Nat → α) (cs : List Node)
    (i k : Nat) (a : α) (h : i < cs.length) :
    goChild upd cs i k a =
      (if isFullNode (cs.getD i (.leaf [] [])) then
        ChildRes.fullChild (cs.getD i (.leaf [] []))
       else
         match goD upd (cs.getD i (.leaf [] [])) k a with
         | .didSplit c2 => ChildRes.splitBelow c2
         | .leafFound a2 p ks ps => ChildRes.leafBelow a2 p ks ps) := by
  rw [goChild_eq, List.getElem?_eq_getElem h, List.getD_eq_getElem _ _ h]

theorem fullCount_pos_of_full {t : Node} (h : isFullNode t = true) :
    1 ≤ fullCount t := by
  cases t with
  | leaf ks ps =>
    simp only [isFullNode, decide_eq_true_eq] at h
    simp [fullCount, h]
  | inner ks cs =>
    simp only [isFullNode, decide_eq_true_eq] at h
    simp [fullCount, h]

theorem ffdN_full {t : Node} (h : isFullNode t = true) (k : Nat) :
    ffdN t k = some 0 := by
  cases t with
  | leaf ks ps =>
    simp only [isFullNode, decide_eq_true_eq] at h
    simp [ffdN, h]
  | inner ks cs =>
    simp only [isFullNode, decide_eq_true_eq] at h
    simp [ffdN, h]

theorem ffdN_le_height :
    ∀ (n : Nat) (t : Node), heightN t ≤ n → wfShapeB t = true →
      ∀ k d, ffdN t k = some d → d ≤ heightN t := by
  intro n
  induction n with
  | zero =>
    intro t ht hwf k d hd
    cases t with
    | leaf ks ps =>
      rw [ffdN] at hd
      by_cases hf : ks.length = leafMaxEntries
      · rw [if_pos hf] at hd
        cases hd
        exact Nat.zero_le _
      · rw [if_neg hf] at hd
        cases hd
    | inner ks cs => simp [heightN] at ht
  | succ n ih =>
    intro t ht hwf k d hd
    cases t with
    | leaf ks ps =>
      rw [ffdN] at hd
      by_cases hf : ks.length = leafMaxEntries
      · rw [if_pos hf] at hd
        cases hd
        exact Nat.zero_le _
      · rw [if_neg hf] at hd
        cases hd
    | inner ks cs =>
      rw [ffdN] at hd
      by_cases hf : ks.length = innerMaxEntries - 1
      · rw [if_pos hf] at hd
        cases hd
        exact Nat.zero_le _
      · rw [if_neg hf] at hd
        simp only [wfShapeB, Bool.and_eq_true, decide_eq_true_eq] at hwf
        obtain ⟨⟨⟨h1, h2⟩, h3⟩, h4⟩ := hwf
        have hne : ks ≠ [] := by
          intro hks
          subst hks
          simp at h1
        have hi : lowerBound ks k < cs.length := by
          have := @lowerBound_le ks k hne
          omega
        rw [ffdChild_getD cs _ hi k] at hd
        cases hchild : ffdN (cs.getD (lowerBound ks k) (.leaf [] [])) k with
        | none => rw [hchild] at hd; simp at hd
        | some d2 =>
          rw [hchild] at hd
          simp only [Option.map_some'] at hd
          have hcmem : cs.getD (lowerBound ks k) (.leaf [] []) ∈ cs := by
            rw [List.getD_eq_getElem _ _ hi]
            exact List.getElem_mem hi
          have hcwf := wfShapeL_iff.mp h4 _ hcmem
          have hhc := heightN_mem_le hcmem
          have hch : heightN (cs.getD (lowerBound ks k) (.leaf [] [])) ≤ n := by
            rw [heightN] at ht
            omega
          have := ih _ hch hcwf k d2 hchild
          rw [heightN]
          have hd2 : d2 + 1 = d := by
            injection hd
          omega

theorem splitNode_spec (c : Node) (hfull : isFullNode c = true)
    (hwf : wfShapeB c = true) :
    wfShapeB (splitNode c).1 = true ∧ wfShapeB (splitNode c).2.1 = true ∧
    isFullNode (splitNode c).1 = false ∧ isFullNode (splitNode c).2.1 = false ∧
    fullCount (splitNode c).1 + fullCount (splitNode c).2.1 + 1 = fullCount c ∧
    heightN (splitNode c).1 ≤ heightN c ∧ heightN (splitNode c).2.1 ≤ heightN c ∧
    (∀ x ∈ treeKeys c, x ∈ treeKeys (splitNode c).1 ∨ x ∈ treeKeys (splitNode c).2.1) := by
  have hLM : leafMaxEntries = 255 := rfl
  have hIM : innerMaxEntries = 255 := rfl
  cases c with
  | leaf ks ps =>
    simp only [isFullNode, decide_eq_true_eq] at hfull
    simp only [wfShapeB, Bool.and_eq_true, decide_eq_true_eq] at hwf
    obtain ⟨h1, h2⟩ := hwf
    have hk : ks.length = 255 := hfull
    have hp : ps.length = 255 := by omega
    simp only [splitNode, leafSplit, hk, hp]
    norm_num
    have hdropk : (ks.drop 127).take 128 = ks.drop 127 :=
      List.take_of_length_le (by simp [hk])
    have hdropp : (ps.drop 127).take 128 = ps.drop 127 :=
      List.take_of_length_le (by simp [hp])
    refine ⟨?_, ?_, ?_, ?_, ?_, ?_, ?_, ?_⟩
    · simp [wfShapeB, List.length_take, hk, hp, hLM]
    · simp [wfShapeB, List.length_take, List.length_drop, hk, hp, hLM]
    · simp [isFullNode, List.length_take, hk, hLM]
    · simp [isFullNode, List.length_take, List.length_drop, hk, hLM]
    · simp [fullCount, List.length_take, List.length_drop, hk, hLM]
    · simp [heightN]
    · simp [heightN]
    · intro x hx
      simp only [treeKeys] at hx ⊢
      rw [hdropk]
      rw [← List.take_append_drop 127 ks, List.mem_append] at hx
      exact hx
  | inner ks cs =>
    simp only [isFullNode, decide_eq_true_eq] at hfull
    simp only [wfShapeB, Bool.and_eq_true, decide_eq_true_eq] at hwf
    obtain ⟨⟨⟨h1, h2⟩, h3⟩, h4⟩ := hwf
    have hk : ks.length = 254 := hfull
    have hc : cs.length = 255 := by omega
    simp only [splitNode, innerSplit, hk]
    norm_num
    have hdropk : (ks.drop 127).take 127 = ks.drop 127 :=
      List.take_of_length_le (by simp [hk])
    have hdropc : (cs.drop 127).take 128 = cs.drop 127 :=
      List.take_of_length_le (by simp [hc])
    have hwtake : wfShapeL (cs.take 127) = true :=
      wfShapeL_iff.mpr (fun x hx => wfShapeL_iff.mp h4 x (List.take_subset _ _ hx))
    have hwdrop : wfShapeL (cs.drop 127) = true :=
      wfShapeL_iff.mpr (fun x hx => wfShapeL_iff.mp h4 x (List.drop_subset _ _ hx))
    have hhtake : heightL (cs.take 127) ≤ heightL cs :=
      heightL_le.mpr (fun x hx => heightN_mem_le (List.take_subset _ _ hx))
    have hhdrop : heightL (cs.drop 127) ≤ heightL cs :=
      heightL_le.mpr (fun x hx => heightN_mem_le (List.drop_subset _ _ hx))
    have hcc : fullCountL (cs.take 127) + fullCountL (cs.drop 127) = fullCountL cs := by
      rw [← fullCountL_append, List.take_append_drop]
    refine ⟨?_, ?_, ?_, ?_, ?_, ?_, ?_, ?_⟩
    · simp [wfShapeB, List.length_take, hk, hc, hIM, hwtake]
    · rw [hdropk, hdropc]
      simp [wfShapeB, List.length_drop, hk, hc, hIM, hwdrop]
    · simp [isFullNode, List.length_take, hk, hIM]
    · simp [isFullNode, List.length_take, List.length_drop, hk, hIM]
    · simp [fullCount, hdropc, List.length_take, List.length_drop, hk, hIM]
      omega
    · simp [heightN]
      omega
    · rw [hdropc]
      simp [heightN]
      omega
    · intro x hx
      simp only [treeKeys] at hx ⊢
      rw [hdropc]
      rw [← List.take_append_drop 127 cs, treeKeysL_append, List.mem_append] at hx
      exact hx

theorem length_insertIdx_le {α : Type} (l : List α) (n : Nat) (x : α) (h : n ≤ l.length) :
    (l.insertIdx n x).length = l.length + 1 := by
  rw [List.length_insertIdx]
  simp [h]

theorem getD_set_self {α : Type} (l : List α) (i : Nat) (x d : α) (h : i < l.length) :
    (l.set i x).getD i d = x := by
  rw [List.getD_eq_getElem _ _ (by simpa using h)]
  exact List.getElem_set_self _

/-- One descent attempt on a well-shaped non-full tree: a split rebuilds a
well-shaped tree of no greater height that keeps every stored key and either
loses a full node or moves the first full node on the search path one level
up; reaching a leaf identifies a non-full leaf of the tree at the reported
path. -/
theorem goD_spec {α : Type} (upd : α → List Nat → Nat → α) :
    ∀ (n : Nat) (t : Node), heightN t ≤ n → wfShapeB t = true → isFullNode t = false →
      ∀ (k : Nat) (acc : α),
      (∀ t2, goD upd t k acc = .didSplit t2 →
        wfShapeB t2 = true ∧ heightN t2 ≤ heightN t ∧
        (∀ x ∈ treeKeys t, x ∈ treeKeys t2) ∧
        (fullCount t2 + 1 = fullCount t ∨
          (fullCount t2 = fullCount t ∧
            ∃ d, ffdN t k = some (d + 1) ∧ ffdN t2 k = some d))) ∧
      (∀ (a : α) path ks2 ps2, goD upd t k acc = .leafFound a path ks2 ps2 →
        nodeAt t path = some (.leaf ks2 ps2) ∧ ks2.length < leafMaxEntries ∧
        ps2.length = ks2.length) := by
  intro n
  induction n with
  | zero =>
    intro t ht hwf hnf k acc
    cases t with
    | leaf ks ps =>
      constructor
      · intro t2 h
        rw [goD] at h
        exact GoRes.noConfusion h
      · intro a p ks2 ps2 h
        rw [goD] at h
        injection h with e1 e2 e3 e4
        subst e2
        subst e3
        subst e4
        simp only [wfShapeB, Bool.and_eq_true, decide_eq_true_eq] at hwf
        simp only [isFullNode, decide_eq_false_iff_not] at hnf
        exact ⟨rfl, by omega, by omega⟩
    | inner ks cs => simp [heightN] at ht
  | succ n ih =>
    intro t ht hwf hnf k acc
    cases t with
    | leaf ks ps =>
      constructor
      · intro t2 h
        rw [goD] at h
        exact GoRes.noConfusion h
      · intro a p ks2 ps2 h
        rw [goD] at h
        injection h with e1 e2 e3 e4
        subst e2
        subst e3
        subst e4
        simp only [wfShapeB, Bool.and_eq_true, decide_eq_true_eq] at hwf
        simp only [isFullNode, decide_eq_false_iff_not] at hnf
        exact ⟨rfl, by omega, by omega⟩
    | inner ks cs =>
      simp only [isFullNode, decide_eq_false_iff_not] at hnf
      have hwf0 := hwf
      simp only [wfShapeB, Bool.and_eq_true, decide_eq_true_eq] at hwf0
      obtain ⟨⟨⟨h1, h2⟩, h3⟩, h4⟩ := hwf0
      have hne : ks ≠ [] := by
        intro hh
        subst hh
        simp at h1
      have hIM : innerMaxEntries = 255 := rfl
      have hlb : lowerBound ks k ≤ ks.length := lowerBound_le hne
      have hilt : lowerBound ks k < cs.length := by omega
      set c := cs.getD (lowerBound ks k) (Node.leaf [] []) with hcdef
      have hcmem : c ∈ cs := by
        rw [hcdef, List.getD_eq_getElem _ _ hilt]
        exact List.getElem_mem hilt
      have hcwf : wfShapeB c = true := wfShapeL_iff.mp h4 c hcmem
      have hchl : heightN c ≤ heightL cs := heightN_mem_le hcmem
      have hch : heightN c ≤ n := by
        rw [heightN] at ht
        omega
      by_cases hfc : isFullNode c = true
      · -- the child about to be entered is full: split it into this node
        obtain ⟨hwl, hwr, hnfl, hnfr, hsum, hhl, hhr, hkeys⟩ := splitNode_spec c hfc hcwf
        have hgo : goD upd (.inner ks cs) k acc =
            GoRes.didSplit (.inner
              (splitChildAt ks cs (lowerBound ks k) c).1
              (splitChildAt ks cs (lowerBound ks k) c).2) := by
          simp only [goD]
          rw [goChild_getD upd cs (lowerBound ks k) k (upd acc ks (lowerBound ks k)) hilt,
            ← hcdef, if_pos hfc]
        have hpos : lowerBound ks (splitNode c).2.2 ≤ ks.length := lowerBound_le hne
        have hsc : splitChildAt ks cs (lowerBound ks k) c =
            (ks.insertIdx (lowerBound ks (splitNode c).2.2) (splitNode c).2.2,
             (cs.set (lowerBound ks k) (splitNode c).1).insertIdx
               (lowerBound ks (splitNode c).2.2 + 1) (splitNode c).2.1) := by
          rw [splitChildAt, innerInsert]
        have hklen : (splitChildAt ks cs (lowerBound ks k) c).1.length = ks.length + 1 := by
          rw [hsc]
          exact length_insertIdx_le _ _ _ hpos
        have hclen : (splitChildAt ks cs (lowerBound ks k) c).2.length = cs.length + 1 := by
          rw [hsc]
          rw [length_insertIdx_le _ _ _ (by simp; omega)]
          simp
        have hmem2 : ∀ y ∈ (splitChildAt ks cs (lowerBound ks k) c).2,
            y = (splitNode c).2.1 ∨ y = (splitNode c).1 ∨ y ∈ cs := by
          intro y hy
          rw [hsc] at hy
          rcases (List.mem_insertIdx (by simp; omega)).mp hy with hy | hy
          · exact Or.inl hy
          · rcases List.mem_or_eq_of_mem_set hy with hy | hy
            · exact Or.inr (Or.inr hy)
            · exact Or.inr (Or.inl hy)
        constructor
        · intro t2 h
          rw [hgo] at h
          injection h with ht2
          subst ht2
          refine ⟨?_, ?_, ?_, ?_⟩
          · -- shape
            simp only [wfShapeB, Bool.and_eq_true, decide_eq_true_eq]
            refine ⟨⟨⟨?_, ?_⟩, ?_⟩, ?_⟩
            · omega
            · omega
            · omega
            · refine wfShapeL_iff.mpr ?_
              intro y hy
              rcases hmem2 y hy with rfl | rfl | hy
              · exact hwr
              · exact hwl
              · exact wfShapeL_iff.mp h4 y hy
          · -- height
            simp only [heightN]
            have : heightL (splitChildAt ks cs (lowerBound ks k) c).2 ≤ heightL cs := by
              refine heightL_le.mpr ?_
              intro y hy
              rcases hmem2 y hy with rfl | rfl | hy
              · omega
              · omega
              · exact heightN_mem_le hy
            omega
          · -- stored keys preserved
            intro x hx
            simp only [treeKeys] at hx ⊢
            rw [hsc]
            rcases treeKeysL_set_cover cs (lowerBound ks k) (splitNode c).1 x hx with hx2 | hx2
            · rw [← hcdef] at hx2
              rcases hkeys x hx2 with hx3 | hx3
              · exact treeKeysL_insertIdx_old _ _ _ _
                  (treeKeysL_set_mem cs (lowerBound ks k) hilt _ x hx3)
              · exact treeKeysL_insertIdx_new _ _ (by simp; omega) _ x hx3
            · exact treeKeysL_insertIdx_old _ _ _ _ hx2
          · -- full count bookkeeping
            have hfl : fullCountL (splitChildAt ks cs (lowerBound ks k) c).2 =
                fullCount (splitNode c).2.1 +
                  fullCountL (cs.set (lowerBound ks k) (splitNode c).1) := by
              rw [hsc]
              exact fullCountL_insertIdx _ _ (by simp; omega) _
            have hfset : fullCountL (cs.set (lowerBound ks k) (splitNode c).1) +
                fullCount c = fullCountL cs + fullCount (splitNode c).1 := by
              rw [hcdef]
              exact fullCountL_set cs (lowerBound ks k) hilt _
            by_cases hkfull : ks.length + 1 = innerMaxEntries - 1
            · right
              constructor
              · simp only [fullCount]
                rw [if_neg hnf, if_pos (by omega)]
                omega
              · refine ⟨0, ?_, ?_⟩
                · rw [ffdN, if_neg hnf, ffdChild_getD cs _ hilt k, ← hcdef,
                    ffdN_full hfc k]
                  rfl
                · rw [ffdN, if_pos (by omega)]
            · left
              simp only [fullCount]
              rw [if_neg hnf, if_neg (by omega)]
              omega
        · intro a p ks2 ps2 h
          rw [hgo] at h
          exact GoRes.noConfusion h
      · -- the child is not full: the attempt continues below it
        have hnfc : isFullNode c = false := by
          cases hx : isFullNode c
          · rfl
          · exact absurd hx hfc
        obtain ⟨ihSplit, ihLeaf⟩ := ih c hch hcwf hnfc k (upd acc ks (lowerBound ks k))
        cases hgc : goD upd c k (upd acc ks (lowerBound ks k)) with
        | didSplit c2 =>
          obtain ⟨hw2, hh2, hk2, hfc2⟩ := ihSplit c2 hgc
          have hgo : goD upd (.inner ks cs) k acc =
              GoRes.didSplit (.inner ks (cs.set (lowerBound ks k) c2)) := by
            simp only [goD]
            rw [goChild_getD upd cs (lowerBound ks k) k (upd acc ks (lowerBound ks k)) hilt,
              ← hcdef, if_neg hfc, hgc]
          constructor
          · intro t2 h
            rw [hgo] at h
            injection h with ht2
            subst ht2
            refine ⟨?_, ?_, ?_, ?_⟩
            · simp only [wfShapeB, Bool.and_eq_true, decide_eq_true_eq]
              refine ⟨⟨⟨h1, h2⟩, by simp [h3]⟩, ?_⟩
              refine wfShapeL_iff.mpr ?_
              intro y hy
              rcases List.mem_or_eq_of_mem_set hy with hy | rfl
              · exact wfShapeL_iff.mp h4 y hy
              · exact hw2
            · simp only [heightN]
              have : heightL (cs.set (lowerBound ks k) c2) ≤ heightL cs := by
                refine heightL_le.mpr ?_
                intro y hy
                rcases List.mem_or_eq_of_mem_set hy with hy | rfl
                · exact heightN_mem_le hy
                · omega
              omega
            · intro x hx
              simp only [treeKeys] at hx ⊢
              rcases treeKeysL_set_cover cs (lowerBound ks k) c2 x hx with hx2 | hx2
              · rw [← hcdef] at hx2
                exact treeKeysL_set_mem cs (lowerBound ks k) hilt c2 x (hk2 x hx2)
              · exact hx2
            · have hfset : fullCountL (cs.set (lowerBound ks k) c2) + fullCount c =
                  fullCountL cs + fullCount c2 := by
                rw [hcdef]
                exact fullCountL_set cs (lowerBound ks k) hilt c2
              rcases hfc2 with hdrop | ⟨heq, d, hf1, hf2⟩
              · left
                simp only [fullCount, if_neg hnf]
                omega
              · right
                constructor
                · simp only [fullCount, if_neg hnf]
                  omega
                · refine ⟨d + 1, ?_, ?_⟩
                  · rw [ffdN, if_neg hnf, ffdChild_getD cs _ hilt k, ← hcdef, hf1]
                    rfl
                  · rw [ffdN, if_neg hnf, ffdChild_getD _ _ (by simp [hilt]) k,
                      getD_set_self cs (lowerBound ks k) c2 _ hilt, hf2]
                    rfl
          · intro a p ks2 ps2 h
            rw [hgo] at h
            exact GoRes.noConfusion h
        | leafFound a2 p2 ks2 ps2 =>
          obtain ⟨hat, hlen, hpl⟩ := ihLeaf a2 p2 ks2 ps2 hgc
          have hgo : goD upd (.inner ks cs) k acc =
              GoRes.leafFound a2 (lowerBound ks k :: p2) ks2 ps2 := by
            simp only [goD]
            rw [goChild_getD upd cs (lowerBound ks k) k (upd acc ks (lowerBound ks k)) hilt,
              ← hcdef, if_neg hfc, hgc]
          constructor
          · intro t2 h
            rw [hgo] at h
            exact GoRes.noConfusion h
          · intro a p ks3 ps3 h
            rw [hgo] at h
            injection h with e1 e2 e3 e4
            subst e2
            subst e3
            subst e4
            refine ⟨?_, hlen, hpl⟩
            rw [nodeAt, nodeAtChild_getD cs (lowerBound ks k) hilt p2, ← hcdef]
            exact hat

theorem splitRootNode_spec (t : Node) (hfull : isFullNode t = true)
    (hwf : wfShapeB t = true) :
    wfShapeB (splitRootNode t) = true ∧
    fullCount (splitRootNode t) + 1 = fullCount t ∧
    heightN (splitRootNode t) ≤ heightN t + 1 ∧
    (∀ x ∈ treeKeys t, x ∈ treeKeys (splitRootNode t)) := by
  obtain ⟨hwl, hwr, hnfl, hnfr, hsum, hhl, hhr, hkeys⟩ := splitNode_spec t hfull hwf
  have hIM : innerMaxEntries = 255 := rfl
  refine ⟨?_, ?_, ?_, ?_⟩
  · simp [splitRootNode, makeRoot, wfShapeB, wfShapeL, hwl, hwr, hIM]
  · simp [splitRootNode, makeRoot, fullCount, fullCountL, hIM]
    omega
  · simp only [splitRootNode, makeRoot, heightN, heightL]
    omega
  · intro x hx
    simp only [splitRootNode, makeRoot, treeKeys, treeKeysL, List.append_nil]
    rw [List.mem_append]
    exact hkeys x hx

theorem ffdF_le (t : Node) (k : Nat) (hwf : wfShapeB t = true) :
    ffdF t k ≤ heightN t + 1 := by
  cases hf : ffdN t k with
  | none => simp [ffdF, hf]
  | some d =>
    simp only [ffdF, hf]
    have := ffdN_le_height (heightN t) t le_rfl hwf k d hf
    omega

theorem ffdF_full {t : Node} (h : isFullNode t = true) (k : Nat) : ffdF t k = 1 := by
  rw [ffdF, ffdN_full h k]

/-- The restart loop of the eager-split descent terminates within the stated
fuel on every well-shaped tree, and yields a well-shaped tree (as seen by
the final attempt) that keeps every stored key, together with the path to a
non-full leaf of that tree. -/
theorem loopD_spec {α : Type} (upd : α → List Nat → Nat → α) (a0 : α) :
    ∀ (fuel : Nat) (t : Node) (k : Nat), wfShapeB t = true →
      fullCount t * (heightN t + fullCount t + 2) + ffdF t k + 1 ≤ fuel →
      ∃ t2 acc path ks ps,
        loopD upd a0 fuel t k = some (t2, acc, path, ks, ps) ∧
        wfShapeB t2 = true ∧ (∀ x ∈ treeKeys t, x ∈ treeKeys t2) ∧
        nodeAt t2 path = some (.leaf ks ps) ∧ ks.length < leafMaxEntries ∧
        ps.length = ks.length := by
  intro fuel
  induction fuel with
  | zero =>
    intro t k hwf hfuel
    omega
  | succ fuel ih =>
    intro t k hwf hfuel
    by_cases hfull : isFullNode t = true
    · obtain ⟨hw2, hfc2, hh2, hk2⟩ := splitRootNode_spec t hfull hwf
      have hffd : ffdF t k = 1 := ffdF_full hfull k
      have hD2 : ffdF (splitRootNode t) k ≤ heightN (splitRootNode t) + 1 :=
        ffdF_le _ k hw2
      have hmul1 : fullCount t * (heightN t + fullCount t + 2) =
          fullCount (splitRootNode t) * (heightN t + fullCount t + 2) +
            (heightN t + fullCount t + 2) := by
        have h1 : fullCount t = fullCount (splitRootNode t) + 1 := by omega
        rw [h1, Nat.succ_mul]
      have hmul2 : fullCount (splitRootNode t) *
            (heightN (splitRootNode t) + fullCount (splitRootNode t) + 2) ≤
          fullCount (splitRootNode t) * (heightN t + fullCount t + 2) :=
        Nat.mul_le_mul_left _ (by omega)
      obtain ⟨t2, acc, path, ks, ps, hres, hw3, hk3, hat, hlen, hpl⟩ :=
        ih (splitRootNode t) k hw2 (by omega)
      refine ⟨t2, acc, path, ks, ps, ?_, hw3, ?_, hat, hlen, hpl⟩
      · rw [loopD, if_pos hfull]
        exact hres
      · intro x hx
        exact hk3 x (hk2 x hx)
    · have hnf : isFullNode t = false := by
        cases hx : isFullNode t
        · rfl
        · exact absurd hx hfull
      obtain ⟨hS, hL⟩ := goD_spec upd (heightN t) t le_rfl hwf hnf k a0
      cases hgo : goD upd t k a0 with
      | didSplit t2 =>
        obtain ⟨hw2, hh2, hk2, hcase⟩ := hS t2 hgo
        have hD2 : ffdF t2 k ≤ heightN t2 + 1 := ffdF_le _ k hw2
        have hfuel2 : fullCount t2 * (heightN t2 + fullCount t2 + 2) + ffdF t2 k + 1 ≤
            fuel := by
          rcases hcase with hdrop | ⟨heq, d, hf1, hf2⟩
          · have hmul1 : fullCount t * (heightN t + fullCount t + 2) =
                fullCount t2 * (heightN t + fullCount t + 2) +
                  (heightN t + fullCount t + 2) := by
              rw [← hdrop, Nat.succ_mul]
            have hmul2 : fullCount t2 * (heightN t2 + fullCount t2 + 2) ≤
                fullCount t2 * (heightN t + fullCount t + 2) :=
              Nat.mul_le_mul_left _ (by omega)
            omega
          · have hD : ffdF t k = d + 2 := by simp [ffdF, hf1]
            have hD2e : ffdF t2 k = d + 1 := by simp [ffdF, hf2]
            have hmul2 : fullCount t2 * (heightN t2 + fullCount t2 + 2) ≤
                fullCount t * (heightN t + fullCount t + 2) := by
              rw [heq]
              exact Nat.mul_le_mul_left _ (by omega)
            omega
        obtain ⟨t3, acc, path, ks, ps, hres, hw3, hk3, hat, hlen, hpl⟩ :=
          ih t2 k hw2 hfuel2
        refine ⟨t3, acc, path, ks, ps, ?_, hw3, ?_, hat, hlen, hpl⟩
        · rw [loopD, if_neg hfull, hgo]
          exact hres
        · intro x hx
          exact hk3 x (hk2 x hx)
      | leafFound a path ks ps =>
        obtain ⟨hat, hlen, hpl⟩ := hL a path ks ps hgo
        refine ⟨t, a, path, ks, ps, ?_, hwf, fun x hx => hx, hat, hlen, hpl⟩
        rw [loopD, if_neg hfull, hgo]

theorem treeFuel_ge (t : Node) (k : Nat) (hwf : wfShapeB t = true) :
    fullCount t * (heightN t + fullCount t + 2) + ffdF t k + 1 ≤ treeFuel t := by
  have := ffdF_le t k hwf
  rw [treeFuel]
  omega

theorem leafInsert_spec (ks ps : List Nat) (k v : Nat)
    (hlen : ks.length < leafMaxEntries) (hpl : ps.length = ks.length) :
    (leafInsert ks ps k v).1.length ≤ leafMaxEntries ∧
    (leafInsert ks ps k v).2.length = (leafInsert ks ps k v).1.length ∧
    k ∈ (leafInsert ks ps k v).1 ∧
    (∀ x ∈ ks, x ∈ (leafInsert ks ps k v).1) := by
  rw [leafInsert]
  by_cases hne : ks.length ≠ 0
  · rw [if_pos hne]
    have hksne : ks ≠ [] := by
      intro hh
      subst hh
      simp at hne
    have hpos : lowerBound ks k ≤ ks.length := lowerBound_le hksne
    by_cases hup : lowerBound ks k < ks.length ∧ ks.getD (lowerBound ks k) 0 = k
    · rw [if_pos hup]
      obtain ⟨hp1, hp2⟩ := hup
      refine ⟨?_, ?_, ?_, fun x hx => hx⟩
      · show ks.length ≤ leafMaxEntries
        omega
      · show (ps.set (lowerBound ks k) v).length = ks.length
        simp [hpl]
      · show k ∈ ks
        rw [← hp2, List.getD_eq_getElem _ _ hp1]
        exact List.getElem_mem hp1
    · rw [if_neg hup]
      refine ⟨?_, ?_, ?_, ?_⟩
      · rw [length_insertIdx_le _ _ _ hpos]
        omega
      · rw [length_insertIdx_le _ _ _ hpos, length_insertIdx_le _ _ _ (by omega)]
        omega
      · exact (List.mem_insertIdx hpos).mpr (Or.inl rfl)
      · intro x hx
        exact (List.mem_insertIdx hpos).mpr (Or.inr hx)
  · rw [if_neg hne]
    push_neg at hne
    refine ⟨by simp; omega, by simp, by simp, ?_⟩
    intro x hx
    rw [List.length_eq_zero.mp hne] at hx
    cases hx

theorem nodeAtChild_none :
    ∀ (cs : List Node) (i : Nat), cs.length ≤ i → ∀ p, nodeAtChild cs i p = none := by
  intro cs
  induction cs with
  | nil => intro i h p; rw [nodeAtChild]
  | cons a as ih =>
    intro i h p
    cases i with
    | zero => simp at h
    | succ i =>
      rw [nodeAtChild]
      exact ih i (by simpa using h) p

/-- Replacing the leaf at a path of a well-shaped tree with bounded new
contents keeps the tree well-shaped, stores the new contents, and loses at
most the replaced leaf's keys. -/
theorem replaceLeaf_spec :
    ∀ (path : List Nat) (t : Node) (ks ps nk np : List Nat),
      wfShapeB t = true → nodeAt t path = some (.leaf ks ps) →
      nk.length ≤ leafMaxEntries → np.length = nk.length →
      wfShapeB (replaceLeaf t path nk np) = true ∧
      (∀ x ∈ nk, x ∈ treeKeys (replaceLeaf t path nk np)) ∧
      (∀ x ∈ treeKeys t, x ∈ ks ∨ x ∈ treeKeys (replaceLeaf t path nk np)) := by
  intro path
  induction path with
  | nil =>
    intro t ks ps nk np hwf hat hnk hnp
    rw [nodeAt] at hat
    injection hat with hat
    subst hat
    rw [replaceLeaf]
    refine ⟨?_, ?_, ?_⟩
    · simp [wfShapeB, hnk, hnp]
    · intro x hx
      simpa [treeKeys] using hx
    · intro x hx
      exact Or.inl (by simpa [treeKeys] using hx)
  | cons i p ihp =>
    intro t ks ps nk np hwf hat hnk hnp
    cases t with
    | leaf a b =>
      rw [nodeAt] at hat
      exact Option.noConfusion hat
    | inner ks2 cs =>
      rw [nodeAt] at hat
      have hilt : i < cs.length := by
        by_contra hge
        rw [nodeAtChild_none cs i (by omega) p] at hat
        exact Option.noConfusion hat
      rw [nodeAtChild_getD cs i hilt p] at hat
      have hwf0 := hwf
      simp only [wfShapeB, Bool.and_eq_true, decide_eq_true_eq] at hwf0
      obtain ⟨⟨⟨h1, h2⟩, h3⟩, h4⟩ := hwf0
      have hcmem : cs.getD i (.leaf [] []) ∈ cs := by
        rw [List.getD_eq_getElem _ _ hilt]
        exact List.getElem_mem hilt
      have hcwf := wfShapeL_iff.mp h4 _ hcmem
      obtain ⟨hw2, hmem2, hcov2⟩ := ihp _ ks ps nk np hcwf hat hnk hnp
      rw [replaceLeaf, replaceChild_getD cs i hilt p nk np]
      refine ⟨?_, ?_, ?_⟩
      · simp only [wfShapeB, Bool.and_eq_true, decide_eq_true_eq]
        refine ⟨⟨⟨h1, h2⟩, by simp [h3]⟩, ?_⟩
        refine wfShapeL_iff.mpr ?_
        intro y hy
        rcases List.mem_or_eq_of_mem_set hy with hy | rfl
        · exact wfShapeL_iff.mp h4 y hy
        · exact hw2
      · intro x hx
        simp only [treeKeys]
        exact treeKeysL_set_mem cs i hilt _ x (hmem2 x hx)
      · intro x hx
        simp only [treeKeys] at hx ⊢
        rcases treeKeysL_set_cover cs i
            (replaceLeaf (cs.getD i (.leaf [] [])) p nk np) x hx with hx2 | hx2
        · rcases hcov2 x hx2 with hx3 | hx3
          · exact Or.inl hx3
          · exact Or.inr (treeKeysL_set_mem cs i hilt _ x hx3)
        · exact Or.inr hx2

/-- Plain insertion on a well-shaped tree keeps it well-shaped, stores k and
keeps every previously stored key. -/
theorem treeInsert_spec (t : Node) (k v : Nat) (hwf : wfShapeB t = true) :
    wfShapeB (treeInsert t k v) = true ∧ k ∈ treeKeys (treeInsert t k v) ∧
    (∀ x ∈ treeKeys t, x ∈ treeKeys (treeInsert t k v)) := by
  obtain ⟨t2, acc, path, ks, ps, hres, hw2, hk2, hat, hlen, hpl⟩ :=
    loopD_spec unitUpd () (treeFuel t) t k hwf (treeFuel_ge t k hwf)
  simp only [treeInsert, hres]
  obtain ⟨hl1, hl2, hl3, hl4⟩ := leafInsert_spec ks ps k v hlen hpl
  obtain ⟨hr1, hr2, hr3⟩ := replaceLeaf_spec path t2 ks ps _ _ hw2 hat hl1 hl2
  refine ⟨hr1, hr2 k hl3, ?_⟩
  intro x hx
  rcases hr3 x (hk2 x hx) with h | h
  · exact hr2 x (hl4 x h)
  · exact h

theorem mergeRightGo_spec :
    ∀ (fuel : Nat) (oldRev bs acc : List (Nat × Nat)),
      oldRev.length + bs.length ≤ fuel →
      (mergeRightGo fuel oldRev bs acc).length =
        oldRev.length + bs.length + acc.length ∧
      (∀ e, e ∈ mergeRightGo fuel oldRev bs acc ↔ e ∈ oldRev ∨ e ∈ bs ∨ e ∈ acc) := by
  intro fuel
  induction fuel with
  | zero =>
    intro oldRev bs acc h
    have h1 : oldRev = [] := List.length_eq_zero.mp (by omega)
    have h2 : bs = [] := List.length_eq_zero.mp (by omega)
    subst h1
    subst h2
    rw [mergeRightGo]
    constructor
    · simp
    · intro e
      simp
  | succ fuel ih =>
    intro oldRev bs acc h
    cases bs with
    | nil =>
      rw [mergeRightGo]
      constructor
      · simp only [List.length_append, List.length_reverse, List.length_nil]
        omega
      · intro e
        simp
    | cons b bs2 =>
      cases oldRev with
      | nil =>
        rw [mergeRightGo]
        obtain ⟨ihl, ihm⟩ := ih [] bs2 (b :: acc) (by simp at h ⊢; omega)
        constructor
        · rw [ihl]
          simp only [List.length_nil, List.length_cons]
          omega
        · intro e
          rw [ihm e]
          simp
          tauto
      | cons o os =>
        rw [mergeRightGo]
        by_cases hcmp : o.1 < b.1
        · rw [if_pos hcmp]
          obtain ⟨ihl, ihm⟩ := ih (o :: os) bs2 (b :: acc) (by simp at h ⊢; omega)
          constructor
          · rw [ihl]
            simp only [List.length_cons]
            omega
          · intro e
            rw [ihm e]
            simp
            tauto
        · rw [if_neg hcmp]
          obtain ⟨ihl, ihm⟩ := ih os (b :: bs2) (o :: acc) (by simp at h ⊢; omega)
          constructor
          · rw [ihl]
            simp only [List.length_cons]
            omega
          · intro e
            rw [ihm e]
            simp
            tauto

theorem mergeRight_spec (old batch : List (Nat × Nat)) :
    (mergeRight old batch).length = old.length + batch.length ∧
    (∀ e, e ∈ mergeRight old batch ↔ e ∈ old ∨ e ∈ batch) := by
  rw [mergeRight]
  obtain ⟨hl, hm⟩ :=
    mergeRightGo_spec (old.length + batch.length) old.reverse batch.reverse [] (by simp)
  constructor
  · rw [hl]
    simp
  · intro e
    rw [hm e]
    simp

theorem mem_zip_left :
    ∀ (ks ps : List Nat), ps.length = ks.length → ∀ x ∈ ks, ∃ p, (x, p) ∈ ks.zip ps := by
  intro ks
  induction ks with
  | nil =>
    intro ps h x hx
    cases hx
  | cons a as ih =>
    intro ps h x hx
    cases ps with
    | nil => simp at h
    | cons q qs =>
      rw [List.zip_cons_cons]
      rcases List.mem_cons.mp hx with rfl | hx
      · exact ⟨q, List.mem_cons_self _ _⟩
      · obtain ⟨p, hp⟩ := ih qs (by simpa using h) x hx
        exact ⟨p, List.mem_cons_of_mem _ hp⟩

theorem takeWhile_take_append {β : Type} :
    ∀ (l : List β) (c : Nat) (p : β → Bool),
      (l.take c).takeWhile p ++ l.drop ((l.take c).takeWhile p).length = l := by
  intro l
  induction l with
  | nil => intro c p; simp
  | cons a as ih =>
    intro c p
    cases c with
    | zero => simp
    | succ c =>
      rw [List.take_succ_cons]
      by_cases hp : p a = true
      · rw [List.takeWhile_cons_of_pos hp]
        simp only [List.length_cons, List.cons_append, List.drop_succ_cons]
        rw [ih c p]
      · rw [List.takeWhile_cons_of_neg (by simp [hp])]
        simp

theorem bulkLoop_cons_nil (fuel : Nat) (t : Node) (k0 v0 : Nat)
    (rest : List (Nat × Nat)) (t2 : Node) (acc : TravAcc) (path ks ps : List Nat)
    (batch merged : List (Nat × Nat)) (t3 : Node)
    (hres : loopD travUpd travInit (treeFuel t) t k0 = some (t2, acc, path, ks, ps))
    (hbatch : batch = (((k0, v0) :: rest).take (leafMaxEntries - ks.length)).takeWhile
      (fun e =>
        match (if acc.seen && !acc.isRightmost then
            some (acc.lastKeys.getD acc.lastIdx 0) else none) with
        | none => true
        | some m => decide (e.1 < m)))
    (hmerged : merged = mergeRight (ks.zip ps) batch)
    (ht3 : t3 = replaceLeaf t2 path (merged.map Prod.fst) (merged.map Prod.snd))
    (hdrop : ((k0, v0) :: rest).drop batch.length = []) :
    bulkLoop (fuel + 1) t ((k0, v0) :: rest) = t3 := by
  subst hbatch
  subst hmerged
  subst ht3
  rw [bulkLoop, bulkTraverse, hres]
  simp only [hdrop]

theorem bulkLoop_cons_cons (fuel : Nat) (t : Node) (k0 v0 : Nat)
    (rest : List (Nat × Nat)) (t2 : Node) (acc : TravAcc) (path ks ps : List Nat)
    (batch merged : List (Nat × Nat)) (t3 : Node) (k1 v1 : Nat)
    (rest2 : List (Nat × Nat))
    (hres : loopD travUpd travInit (treeFuel t) t k0 = some (t2, acc, path, ks, ps))
    (hbatch : batch = (((k0, v0) :: rest).take (leafMaxEntries - ks.length)).takeWhile
      (fun e =>
        match (if acc.seen && !acc.isRightmost then
            some (acc.lastKeys.getD acc.lastIdx 0) else none) with
        | none => true
        | some m => decide (e.1 < m)))
    (hmerged : merged = mergeRight (ks.zip ps) batch)
    (ht3 : t3 = replaceLeaf t2 path (merged.map Prod.fst) (merged.map Prod.snd))
    (hdrop : ((k0, v0) :: rest).drop batch.length = (k1, v1) :: rest2) :
    bulkLoop (fuel + 1) t ((k0, v0) :: rest) = bulkLoop fuel (treeInsert t3 k1 v1) rest2 := by
  subst hbatch
  subst hmerged
  subst ht3
  rw [bulkLoop, bulkTraverse, hres]
  simp only [hdrop]

/-- The cursor loop of bulk_insert on a well-shaped tree returns a
well-shaped tree holding every key of the input batch and every previously
stored key, provided the fuel exceeds the batch length (each iteration
consumes at least one input pair). -/
theorem bulkLoop_spec :
    ∀ (fuel : Nat) (kvs : List (Nat × Nat)) (t : Node), wfShapeB t = true →
      kvs.length < fuel →
      wfShapeB (bulkLoop fuel t kvs) = true ∧
      (∀ x, x ∈ kvs.map Prod.fst ∨ x ∈ treeKeys t → x ∈ treeKeys (bulkLoop fuel t kvs)) := by
  intro fuel
  induction fuel with
  | zero =>
    intro kvs t hwf h
    omega
  | succ fuel ih =>
    intro kvs t hwf h
    cases kvs with
    | nil =>
      rw [bulkLoop]
      refine ⟨hwf, ?_⟩
      intro x hx
      rcases hx with hx | hx
      · simp at hx
      · exact hx
    | cons kv rest =>
      obtain ⟨k0, v0⟩ := kv
      obtain ⟨t2, acc, path, ks, ps, hres, hw2, hk2, hat, hlen, hpl⟩ :=
        loopD_spec travUpd travInit (treeFuel t) t k0 hwf (treeFuel_ge t k0 hwf)
      obtain ⟨batch, hbatch⟩ :
          ∃ b, b = (((k0, v0) :: rest).take (leafMaxEntries - ks.length)).takeWhile
            (fun e =>
              match (if acc.seen && !acc.isRightmost then
                  some (acc.lastKeys.getD acc.lastIdx 0) else none) with
              | none => true
              | some m => decide (e.1 < m)) := ⟨_, rfl⟩
      obtain ⟨merged, hmerged⟩ : ∃ m, m = mergeRight (ks.zip ps) batch := ⟨_, rfl⟩
      obtain ⟨t3, ht3⟩ :
          ∃ u, u = replaceLeaf t2 path (merged.map Prod.fst) (merged.map Prod.snd) :=
        ⟨_, rfl⟩
      have hblen : batch.length ≤ leafMaxEntries - ks.length := by
        have h1 : batch.length ≤
            (((k0, v0) :: rest).take (leafMaxEntries - ks.length)).length := by
          rw [hbatch]
          exact (List.takeWhile_sublist _).length_le
        have h2 := List.length_take (leafMaxEntries - ks.length) ((k0, v0) :: rest)
        omega
      have hziplen : (ks.zip ps).length = ks.length := by
        rw [List.length_zip, hpl]
        omega
      obtain ⟨hmlen0, hmmem⟩ := mergeRight_spec (ks.zip ps) batch
      have hmlen : merged.length = ks.length + batch.length := by
        rw [hmerged, hmlen0, hziplen]
      have hmk : (merged.map Prod.fst).length ≤ leafMaxEntries := by
        rw [List.length_map]
        omega
      have hmp : (merged.map Prod.snd).length = (merged.map Prod.fst).length := by
        simp
      obtain ⟨hw3, hmem3, hcov3⟩ :=
        replaceLeaf_spec path t2 ks ps (merged.map Prod.fst) (merged.map Prod.snd)
          hw2 hat hmk hmp
      rw [← ht3] at hw3 hmem3 hcov3
      have hksub : ∀ x ∈ ks, x ∈ treeKeys t3 := by
        intro x hx
        obtain ⟨p, hp⟩ := mem_zip_left ks ps hpl x hx
        refine hmem3 x ?_
        refine List.mem_map.mpr ⟨(x, p), ?_, rfl⟩
        rw [hmerged]
        exact (hmmem _).mpr (Or.inl hp)
      have hbk : ∀ e ∈ batch, e.1 ∈ treeKeys t3 := by
        intro e he
        refine hmem3 e.1 ?_
        refine List.mem_map.mpr ⟨e, ?_, rfl⟩
        rw [hmerged]
        exact (hmmem _).mpr (Or.inr he)
      have htkeep : ∀ x ∈ treeKeys t, x ∈ treeKeys t3 := by
        intro x hx
        rcases hcov3 x (hk2 x hx) with hx2 | hx2
        · exact hksub x hx2
        · exact hx2
      have hdecomp : batch ++ ((k0, v0) :: rest).drop batch.length = (k0, v0) :: rest := by
        rw [hbatch]
        exact takeWhile_take_append _ _ _
      cases hdrop : ((k0, v0) :: rest).drop batch.length with
      | nil =>
        rw [bulkLoop_cons_nil fuel t k0 v0 rest t2 acc path ks ps batch merged t3
          hres hbatch hmerged ht3 hdrop]
        refine ⟨hw3, ?_⟩
        intro x hx
        rcases hx with hx | hx
        · rw [hdrop, List.append_nil] at hdecomp
          rw [← hdecomp] at hx
          obtain ⟨e, he, hex⟩ := List.mem_map.mp hx
          rw [← hex]
          exact hbk e he
        · exact htkeep x hx
      | cons q rest2 =>
        obtain ⟨k1, v1⟩ := q
        rw [bulkLoop_cons_cons fuel t k0 v0 rest t2 acc path ks ps batch merged t3
          k1 v1 rest2 hres hbatch hmerged ht3 hdrop]
        obtain ⟨hw4, hk1m, hpres4⟩ := treeInsert_spec t3 k1 v1 hw3
        have hrestlen : rest2.length < fuel := by
          have hlen1 := congrArg List.length hdecomp
          rw [List.length_append, hdrop] at hlen1
          simp only [List.length_cons] at hlen1 h
          omega
        obtain ⟨hw5, hmem5⟩ := ih rest2 (treeInsert t3 k1 v1) hw4 hrestlen
        refine ⟨hw5, ?_⟩
        intro x hx
        rcases hx with hx | hx
        · rw [← hdecomp, hdrop, List.map_append] at hx
          rcases List.mem_append.mp hx with hx2 | hx2
          · obtain ⟨e, he, hex⟩ := List.mem_map.mp hx2
            refine hmem5 x (Or.inr (hpres4 x ?_))
            rw [← hex]
            exact hbk e he
          · rw [List.map_cons] at hx2
            rcases List.mem_cons.mp hx2 with rfl | hx3
            · exact hmem5 _ (Or.inr hk1m)
            · exact hmem5 x (Or.inl hx3)
        · exact hmem5 x (Or.inr (hpres4 x (htkeep x hx)))

/-- BTree::bulk_insert on a well-shaped tree: the result is well-shaped and
holds every key of the inserted pairs and every previously stored key. -/
theorem bulkInsert_spec (t : Node) (kvs : List (Nat × Nat)) (hwf : wfShapeB t = true) :
    wfShapeB (bulkInsert t kvs) = true ∧
    (∀ x, x ∈ kvs.map Prod.fst ∨ x ∈ treeKeys t → x ∈ treeKeys (bulkInsert t kvs)) := by
  rw [bulkInsert]
  by_cases hemp : kvs.isEmpty = true
  · rw [if_pos hemp]
    refine ⟨hwf, ?_⟩
    intro x hx
    rcases hx with hx | hx
    · rw [List.isEmpty_iff.mp hemp] at hx
      cases hx
    · exact hx
  · rw [if_neg hemp]
    obtain ⟨hw, hm⟩ := bulkLoop_spec (sortPairs kvs).length.succ (sortPairs kvs) t hwf
      (Nat.lt_succ_self _)
    refine ⟨hw, ?_⟩
    intro x hx
    refine hm x ?_
    rcases hx with hx | hx
    · left
      obtain ⟨e, he, hex⟩ := List.mem_map.mp hx
      refine List.mem_map.mpr ⟨e, ?_, hex⟩
      rw [sortPairs]
      exact ((List.perm_insertionSort _ kvs).mem_iff).mpr he
    · exact Or.inr hx

theorem eraseTrace_tree :
    ∀ (l : List (Nat × Nat)) (s : BTreeState) (u : BTreeState), u ∈ eraseTrace s l →
      u.tree = s.tree := by
  intro l
  induction l with
  | nil =>
    intro s u hu
    rw [eraseTrace] at hu
    cases hu
  | cons e l ih =>
    intro s u hu
    obtain ⟨k, v⟩ := e
    rw [eraseTrace] at hu
    rcases List.mem_cons.mp hu with rfl | hu
    · rfl
    · exact ih { tree := s.tree, ws := s.ws, hc := hcErase s.hc k } u hu

/-- C2: every pair the purge enumerates from the hot cache for the purged
range stays visible at every state the purge passes through: before the
erase loop it is still in the hot cache, and from the bulk insertion on its
key is stored in the tree, so no intermediate state has an enumerated key
already erased from the HC but not yet inserted into the tree. -/
theorem c2_purge_ordering (s : BTreeState) (hwf : wfShapeB s.tree = true) :
    ∀ s2 ∈ purgeTrace s, ∀ kv ∈ purgedPairs s,
      kv.1 ∈ hcKeys s2.hc ∨ kv.1 ∈ treeKeys s2.tree := by
  intro s2 hs2 kv hkv
  have hkvhc : kv ∈ s.hc := by
    simp only [purgedPairs] at hkv
    exact (List.mem_filter.mp hkv).1
  have htreemem : kv.1 ∈ treeKeys (bulkInsert s.tree (purgedPairs s)) :=
    (bulkInsert_spec s.tree (purgedPairs s) hwf).2 kv.1
      (Or.inl (List.mem_map.mpr ⟨kv, hkv, rfl⟩))
  simp only [purgeTrace] at hs2
  rcases List.mem_cons.mp hs2 with rfl | hs2
  · exact Or.inl (List.mem_map.mpr ⟨kv, hkvhc, rfl⟩)
  rcases List.mem_cons.mp hs2 with rfl | hs2
  · exact Or.inl (List.mem_map.mpr ⟨kv, hkvhc, rfl⟩)
  rcases List.mem_cons.mp hs2 with rfl | hs2
  · exact Or.inl (List.mem_map.mpr ⟨kv, hkvhc, rfl⟩)
  · right
    have htree := eraseTrace_tree _ _ s2 hs2
    rw [htree]
    exact htreemem

/-- C2 witness: the purge-ordering theorem evaluated at a concrete state
whose policy wants to purge [0, 100) while the pair (5, 50) sits in the hot
cache. -/
theorem c2_purge_ordering_witness :
    wfShapeB c2State.tree = true ∧
    (∀ s2 ∈ purgeTrace c2State, ∀ kv ∈ purgedPairs c2State,
      kv.1 ∈ hcKeys s2.hc ∨ kv.1 ∈ treeKeys s2.tree) :=
  ⟨by decide, c2_purge_ordering c2State (by decide)⟩

end BTreeHybrid
